import Mathlib

/-!
Verification development for the StartOut provisioning engine
(`startout/starterfile.py`, `startout/tool.py`, `startout/module.py`,
`startout/util.py`, `startout/env_manager.py`).

The Python sources are embedded shallowly: dictionaries become association
lists, `None` becomes `Option.none`, a raised exception becomes the error
side of an `Except`, and the outcome of running a subprocess (a unit's
`check`/`initialize`/`destroy` call) is abstracted as the boolean result the
caller observes.
-/

/--
An item as consumed by `create_dependency_layers` (a `Tool` or a `Module`):
the function only reads `item.name` and `item.dependencies`.  `none` models a
Python `None` (no `depends_on` key in the manifest), `some l` a list of
dependency names.
-/
structure DepItem where
  name : String
  dependencies : Option (List String)
deriving DecidableEq, Repr

/--
The dependency names of an item, with `[]` for an absent list.  Items that
reach the scheduling loop of `create_dependency_layers` always carry a
`some` list (an item with `dependencies is None` has its name put into layer
0 and is excluded from the loop), so the default never changes the embedded
behaviour.
-/
def depsOf (u : DepItem) : List String :=
  u.dependencies.getD []

/--
The errors of `create_dependency_layers`.  In the source both are
`print(...); exit(1)`; the embedding returns them as values.  `unmet` carries
the set of dependency names that match no item (`set(all_items_depended_upon)
- set(names)`), `circular` the names of the items that could not be
scheduled when a pass of the loop added nothing.
-/
inductive DepError where
  | unmet (missing : List String)
  | circular (stuck : List String)
deriving DecidableEq, Repr

/-- One edge of the dependency graph: item `u` depends on item `v`. -/
def depEdge (u v : DepItem) : Prop :=
  v.name ∈ depsOf u

instance (u v : DepItem) : Decidable (depEdge u v) := by
  unfold depEdge; infer_instance

/--
The dependency graph of `items` contains a cycle: an item `u` and a list `l`
of items, all drawn from `items`, with dependency edges leading from `u`
through `l` and back to `u`.  `l = []` is the self-dependency case
(`depEdge u u`).
-/
def hasCycle (items : List DepItem) : Prop :=
  ∃ u l, u ∈ items ∧ (∀ x ∈ l, x ∈ items) ∧ List.Chain depEdge u (l ++ [u])

/--
The `while dependent_items:` loop of `create_dependency_layers`.  `R` is the
set of still-unscheduled items (kept in first-seen order; the Python set is
only ever iterated, membership-tested and shrunk, so a duplicate-free list is
a faithful model), `L` the layers built so far.  Each pass collects every
remaining item whose dependencies are all already scheduled; if a pass
collects nothing the loop reports the stuck items as a circular dependency,
otherwise the collected names become the next layer.
-/
def layersLoop (R : List DepItem) (L : List (List String)) :
    Except DepError (List (List String)) :=
  if R.isEmpty then .ok L
  else
    let scheduled := L.flatten
    let added := R.filter fun d => (depsOf d).all fun needed => decide (needed ∈ scheduled)
    if added.isEmpty then .error (.circular (R.map (·.name)))
    else
      layersLoop (R.filter fun d => !decide (d ∈ added)) (L ++ [added.map (·.name)])
termination_by R.length
decreasing_by
  rename_i hAdded
  refine List.length_filter_lt_length_iff_exists.mpr ?_
  have hne : added ≠ [] := by simpa [List.isEmpty_iff] using hAdded
  rcases List.exists_mem_of_ne_nil added hne with ⟨a, ha⟩
  obtain ⟨haR, -⟩ := List.mem_filter.mp ha
  refine ⟨a, haR, ?_⟩
  simp only [Bool.not_eq_true', decide_eq_false_iff_not, not_not]
  exact ha

/--
`create_dependency_layers` from `startout/starterfile.py`.  Layer 0 is the
names of the items with no dependency list; then every dependency name that
matches no item is a fatal unmet-dependency error (checked before the loop
runs); otherwise the remaining items are scheduled by `layersLoop`.  The
Python `set` of unmet names is modelled as a deduplicated filtered list
(same membership and same emptiness test).
-/
def create_dependency_layers (items : List DepItem) :
    Except DepError (List (List String)) :=
  let layer0 := (items.filter fun i => i.dependencies.isNone).map (·.name)
  let all_items_depended_upon := (items.filterMap (·.dependencies)).flatten
  let unmet_dependencies :=
    (all_items_depended_upon.filter fun d =>
      !decide (d ∈ items.map (·.name))).dedup
  if unmet_dependencies.isEmpty then
    layersLoop (items.filter fun i => !decide (i.name ∈ layer0)) [layer0]
  else
    .error (.unmet unmet_dependencies)

/-- Cycles are preserved by enlarging the item collection. -/
theorem hasCycle_mono {R S : List DepItem} (hsub : ∀ x ∈ R, x ∈ S) :
    hasCycle R → hasCycle S := by
  rintro ⟨u, l, hu, hl, hc⟩
  exact ⟨u, l, hsub u hu, fun x hx => hsub x (hl x hx), hc⟩

/-- A chain can be extended by one edge at its end. -/
theorem chain_snoc {α : Type} {e : α → α → Prop} :
    ∀ (l : List α) (a b c : α), List.Chain e a (l ++ [b]) → e b c →
      List.Chain e a (l ++ [b, c]) := by
  intro l
  induction l with
  | nil =>
    intro a b c hc hbc
    cases hc with
    | cons hab htail => exact List.Chain.cons hab (List.Chain.cons hbc List.Chain.nil)
  | cons x xs ih =>
    intro a b c hc hbc
    cases hc with
    | cons hax htail => exact List.Chain.cons hax (ih x b c htail hbc)

/-- The dependency edge relation restricted to the items of `R`. -/
def depEdgeIn (R : List DepItem) (u v : DepItem) : Prop :=
  u ∈ R ∧ v ∈ R ∧ depEdge u v

/-- A transitive-closure step inside `R` yields an explicit edge path. -/
theorem transGen_chain {R : List DepItem} {a b : DepItem}
    (h : Relation.TransGen (depEdgeIn R) a b) :
    a ∈ R ∧ b ∈ R ∧ ∃ l, (∀ x ∈ l, x ∈ R) ∧ List.Chain depEdge a (l ++ [b]) := by
  induction h with
  | single hab =>
    exact ⟨hab.1, hab.2.1, [], by simp,
      List.Chain.cons hab.2.2 List.Chain.nil⟩
  | tail hab hbc ih =>
    rename_i b' c'
    obtain ⟨haR, hbR, l, hl, hchain⟩ := ih
    refine ⟨haR, hbc.2.1, l ++ [b'], ?_, ?_⟩
    · intro x hx
      rcases List.mem_append.mp hx with hx | hx
      · exact hl x hx
      · simp only [List.mem_singleton] at hx
        exact hx ▸ hbR
    · have := chain_snoc l a b' c' hchain hbc.2.2
      simpa using this

/-- If every item of a nonempty collection has a dependency edge to another
item of the collection, the collection contains a cycle. -/
theorem cycle_of_forall_succ {R : List DepItem} (hne : R ≠ [])
    (hsucc : ∀ r ∈ R, ∃ v ∈ R, depEdge r v) : hasCycle R := by
  by_contra hnc
  have hirr : ∀ u, ¬ Relation.TransGen (depEdgeIn R) u u := by
    intro u hu
    obtain ⟨huR, -, l, hl, hchain⟩ := transGen_chain hu
    exact hnc ⟨u, l, huR, hl, hchain⟩
  classical
  let T := {x // x ∈ R.toFinset}
  let s : T → T → Prop := fun a b => Relation.TransGen (depEdgeIn R) b.1 a.1
  have htrans : IsTrans T s := ⟨fun a b c hab hbc => Relation.TransGen.trans hbc hab⟩
  have hirr' : IsIrrefl T s := ⟨fun a ha => hirr a.1 ha⟩
  have hwf : WellFounded s := @Finite.wellFounded_of_trans_of_irrefl T _ s htrans hirr'
  obtain ⟨r0, hr0⟩ := List.exists_mem_of_ne_nil R hne
  have hne' : (Set.univ : Set T).Nonempty := ⟨⟨r0, List.mem_toFinset.mpr hr0⟩, trivial⟩
  obtain ⟨m, -, hmin⟩ := hwf.has_min Set.univ hne'
  obtain ⟨v, hv, hedge⟩ := hsucc m.1 (List.mem_toFinset.mp m.2)
  exact hmin ⟨v, List.mem_toFinset.mpr hv⟩ trivial
    (Relation.TransGen.single ⟨List.mem_toFinset.mp m.2, hv, hedge⟩)

/-- In a cycle-free collection in which every dependency either is already
scheduled (`∈ S`) or names another collection member, some member has all of
its dependencies scheduled. -/
theorem exists_schedulable {R : List DepItem} {S : List String} (hne : R ≠ [])
    (hres : ∀ r ∈ R, ∀ d ∈ depsOf r, d ∈ S ∨ ∃ v ∈ R, v.name = d)
    (hnc : ¬ hasCycle R) :
    ∃ r ∈ R, ∀ d ∈ depsOf r, d ∈ S := by
  by_contra hno
  push_neg at hno
  have hsucc : ∀ r ∈ R, ∃ v ∈ R, depEdge r v := by
    intro r hr
    obtain ⟨d, hd, hdS⟩ := hno r hr
    rcases hres r hr d hd with h | ⟨v, hv, hname⟩
    · exact absurd h hdS
    · exact ⟨v, hv, by rw [depEdge, hname]; exact hd⟩
  exact hnc (cycle_of_forall_succ hne hsucc)

/-- Edges strictly decrease a rank along a chain. -/
theorem chain_rank_lt {rank : DepItem → ℕ} {items : List DepItem}
    (hr : ∀ u ∈ items, ∀ v ∈ items, depEdge u v → rank v < rank u) :
    ∀ (l : List DepItem) (a : DepItem), a ∈ items → (∀ x ∈ l, x ∈ items) →
      List.Chain depEdge a l → ∀ x ∈ l, rank x < rank a := by
  intro l
  induction l with
  | nil => intro a _ _ _ x hx; simp at hx
  | cons b m ih =>
    intro a ha hmem hchain x hx
    cases hchain with
    | cons hab hbm =>
      have hb : b ∈ items := hmem b (by simp)
      have hrb : rank b < rank a := hr a ha b hb hab
      rcases List.mem_cons.mp hx with rfl | hx
      · exact hrb
      · exact lt_trans (ih b hb (fun y hy => hmem y (List.mem_cons_of_mem _ hy)) hbm x hx) hrb

/-- A collection admitting a rank function that strictly decreases along
dependency edges has no cycle (used to discharge acyclicity at concrete
inputs). -/
theorem no_cycle_of_rank {items : List DepItem} (rank : DepItem → ℕ)
    (hr : ∀ u ∈ items, ∀ v ∈ items, depEdge u v → rank v < rank u) :
    ¬ hasCycle items := by
  rintro ⟨u, l, hu, hl, hchain⟩
  have hmem : ∀ x ∈ l ++ [u], x ∈ items := by
    intro x hx
    rcases List.mem_append.mp hx with hx | hx
    · exact hl x hx
    · simp only [List.mem_singleton] at hx
      exact hx ▸ hu
  have := chain_rank_lt hr (l ++ [u]) u hu hmem hchain u (by simp)
  exact lt_irrefl _ this

/-- Every element of `a :: m.dropLast` has an edge successor inside `m`
(the final element of the chain is excluded, its successor may be outside). -/
theorem chain_mem_succ {α : Type} {e : α → α → Prop} :
    ∀ (m : List α) (a : α), m ≠ [] → List.Chain e a m →
      ∀ x ∈ a :: m.dropLast, ∃ y ∈ m, e x y := by
  intro m
  induction m with
  | nil => intro a hm; exact absurd rfl hm
  | cons b m' ih =>
    intro a _ hchain x hx
    cases hchain with
    | cons hab hbm =>
      rcases List.mem_cons.mp hx with rfl | hx
      · exact ⟨b, by simp, hab⟩
      · match m', hbm, hx with
        | [], _, hx => simp at hx
        | c :: m'', hbm, hx =>
          have hx' : x ∈ b :: (c :: m'').dropLast := by
            simpa using hx
          obtain ⟨y, hy, hxy⟩ := ih b (by simp) hbm x hx'
          exact ⟨y, List.mem_cons_of_mem _ hy, hxy⟩

/-- The layer at index `j` of a layer list, `[]` when out of range; used to
state membership facts without dependent indexing. -/
def layerAt (layers : List (List String)) (j : ℕ) : List String :=
  layers.getD j []

theorem layerAt_of_le {L : List (List String)} {j : ℕ} (hj : L.length ≤ j) :
    layerAt L j = [] :=
  List.getD_eq_default L [] hj

theorem mem_layerAt_iff {L : List (List String)} {j : ℕ} {n : String} :
    n ∈ layerAt L j ↔ ∃ hj : j < L.length, n ∈ L[j] := by
  by_cases hj : j < L.length
  · rw [layerAt, List.getD_eq_getElem L [] hj]
    exact ⟨fun h => ⟨hj, h⟩, fun ⟨_, h⟩ => h⟩
  · rw [layerAt, List.getD_eq_default L [] (le_of_not_lt hj)]
    simp only [List.not_mem_nil, false_iff]
    rintro ⟨hj', -⟩
    exact hj hj'

theorem mem_flatten_iff_layerAt {L : List (List String)} {n : String} :
    n ∈ L.flatten ↔ ∃ j, n ∈ layerAt L j := by
  rw [List.mem_flatten]
  constructor
  · rintro ⟨l, hl, hn⟩
    obtain ⟨j, hj, rfl⟩ := List.getElem_of_mem hl
    exact ⟨j, mem_layerAt_iff.mpr ⟨hj, hn⟩⟩
  · rintro ⟨j, hn⟩
    obtain ⟨hj, hn⟩ := mem_layerAt_iff.mp hn
    exact ⟨L[j], List.getElem_mem hj, hn⟩

theorem mem_take_flatten {L : List (List String)} {n : String} {j : ℕ} :
    n ∈ (L.take j).flatten ↔ ∃ k, k < j ∧ n ∈ layerAt L k := by
  rw [mem_flatten_iff_layerAt]
  constructor
  · rintro ⟨k, hk⟩
    obtain ⟨hk', hmem⟩ := mem_layerAt_iff.mp hk
    have hlen : (List.take j L).length = min j L.length := List.length_take j L
    have hkj : k < j := by omega
    have hkL : k < L.length := by omega
    have heq : (List.take j L)[k] = L[k] := List.getElem_take L
    refine ⟨k, hkj, mem_layerAt_iff.mpr ⟨hkL, ?_⟩⟩
    rw [← heq]
    exact hmem
  · rintro ⟨k, hkj, hk⟩
    obtain ⟨hkL, hmem⟩ := mem_layerAt_iff.mp hk
    have hlen : (List.take j L).length = min j L.length := List.length_take j L
    have hk' : k < (List.take j L).length := by omega
    refine ⟨k, mem_layerAt_iff.mpr ⟨hk', ?_⟩⟩
    rw [List.getElem_take L]
    exact hmem

theorem layerAt_append_left {L M : List (List String)} {j : ℕ} (hj : j < L.length) :
    layerAt (L ++ M) j = layerAt L j := by
  have hj' : j < (L ++ M).length := by simp; omega
  rw [layerAt, layerAt, List.getD_eq_getElem _ [] hj', List.getD_eq_getElem _ [] hj,
    List.getElem_append_left hj]

theorem layerAt_append_right {L M : List (List String)} {j : ℕ} (hj : L.length ≤ j) :
    layerAt (L ++ M) j = layerAt M (j - L.length) := by
  by_cases h2 : j < (L ++ M).length
  · have h3 : j - L.length < M.length := by simp at h2; omega
    rw [layerAt, layerAt, List.getD_eq_getElem _ [] h2, List.getD_eq_getElem _ [] h3,
      List.getElem_append_right hj]
  · have h3 : M.length ≤ j - L.length := by simp at h2; omega
    rw [layerAt_of_le (le_of_not_lt h2), layerAt_of_le h3]

/-- In a duplicate-free flattened layer list every name determines its layer. -/
theorem layer_of_mem_unique {L : List (List String)} (h : L.flatten.Nodup)
    {n : String} {j k : ℕ} (hj : n ∈ layerAt L j) (hk : n ∈ layerAt L k) : j = k := by
  obtain ⟨hj', hjm⟩ := mem_layerAt_iff.mp hj
  obtain ⟨hk', hkm⟩ := mem_layerAt_iff.mp hk
  by_contra hne
  have hpair := (List.nodup_flatten.mp h).2
  rw [List.pairwise_iff_getElem] at hpair
  rcases Nat.lt_or_ge j k with hlt | hge
  · exact (hpair j k hj' hk' hlt) hjm hkm
  · have hlt : k < j := lt_of_le_of_ne hge fun he => hne he.symm
    exact (hpair k j hk' hj' hlt) hkm hjm

/-- Membership in the `added_items` filter of a `layersLoop` pass. -/
theorem mem_added_iff {R : List DepItem} {L : List (List String)} {a : DepItem} :
    (a ∈ R.filter fun d => (depsOf d).all fun needed => decide (needed ∈ L.flatten)) ↔
      a ∈ R ∧ ∀ d ∈ depsOf a, d ∈ L.flatten := by
  rw [List.mem_filter]
  simp [List.all_eq_true]

/-- One unfolding of `layersLoop`. -/
theorem layersLoop_eq (R : List DepItem) (L : List (List String)) :
    layersLoop R L =
      if R.isEmpty then .ok L
      else
        let added := R.filter fun d => (depsOf d).all fun needed => decide (needed ∈ L.flatten)
        if added.isEmpty then .error (.circular (R.map (·.name)))
        else layersLoop (R.filter fun d => !decide (d ∈ added)) (L ++ [added.map (·.name)]) := by
  rw [layersLoop]

/--
Main invariant of the scheduling loop.  If every dependency of a remaining
item is either already scheduled or names another remaining item, the
combined name list is duplicate-free, and the remaining items contain no
cycle, then the loop succeeds; the result extends `L` by nonempty layers
whose names are exactly the names of `R`, each appended layer holds items
whose dependencies are scheduled strictly earlier, and — when no remaining
item could have been placed into an earlier pass (`hhard`, the premise of
the final conjunct) — only items with a dependency in the immediately
preceding layer.
-/
theorem layersLoop_spec :
    ∀ (fuel : ℕ) (R : List DepItem) (L : List (List String)),
    R.length ≤ fuel →
    (∀ r ∈ R, ∀ d ∈ depsOf r, d ∈ L.flatten ∨ ∃ v ∈ R, v.name = d) →
    (L.flatten ++ R.map (·.name)).Nodup →
    ¬ hasCycle R →
    ∃ out, layersLoop R L = .ok out ∧
      (∃ ext, out = L ++ ext) ∧
      out.flatten.Perm (L.flatten ++ R.map (·.name)) ∧
      (∀ j, L.length ≤ j → j < out.length → layerAt out j ≠ []) ∧
      (∀ j, L.length ≤ j → ∀ n ∈ layerAt out j,
        ∃ r ∈ R, r.name = n ∧
          (∀ d ∈ depsOf r, d ∈ (out.take j).flatten) ∧
          ((∀ x ∈ R, ¬ ∀ d ∈ depsOf x, d ∈ (L.dropLast).flatten) →
            ¬ ∀ d ∈ depsOf r, d ∈ (out.take (j - 1)).flatten)) := by
  intro fuel
  induction fuel with
  | zero =>
    intro R L hlen hres hnodup hnc
    have hR : R = [] := List.length_eq_zero.mp (Nat.le_zero.mp hlen)
    subst hR
    refine ⟨L, by rw [layersLoop_eq]; simp, ⟨[], (List.append_nil L).symm⟩, by simp, ?_, ?_⟩
    · intro j hj hj'
      exact absurd hj' (not_lt.mpr hj)
    · intro j hj n hn
      rw [layerAt_of_le hj] at hn
      exact absurd hn (List.not_mem_nil n)
  | succ fuel ih =>
    intro R L hlen hres hnodup hnc
    by_cases hRe : R = []
    · subst hRe
      refine ⟨L, by rw [layersLoop_eq]; simp, ⟨[], (List.append_nil L).symm⟩, by simp, ?_, ?_⟩
      · intro j hj hj'
        exact absurd hj' (not_lt.mpr hj)
      · intro j hj n hn
        rw [layerAt_of_le hj] at hn
        exact absurd hn (List.not_mem_nil n)
    · obtain ⟨r0, hr0R, hr0⟩ := exists_schedulable hRe hres hnc
      have hr0added : r0 ∈ R.filter fun d => (depsOf d).all fun needed => decide (needed ∈ L.flatten) :=
        mem_added_iff.mpr ⟨hr0R, hr0⟩
      set added := R.filter fun d => (depsOf d).all fun needed => decide (needed ∈ L.flatten) with hA
      have haddedne : added ≠ [] := List.ne_nil_of_mem hr0added
      set R2 := R.filter fun d => !decide (d ∈ added) with hR2
      set L2 := L ++ [added.map (·.name)] with hL2
      have hmemAdded : ∀ x, x ∈ added ↔ x ∈ R ∧ ∀ d ∈ depsOf x, d ∈ L.flatten := by
        intro x
        rw [hA]
        exact mem_added_iff
      have hmemR2 : ∀ x, x ∈ R2 ↔ x ∈ R ∧ x ∉ added := by
        intro x
        rw [hR2, List.mem_filter]
        simp
      have hR2sub : ∀ x ∈ R2, x ∈ R := fun x hx => ((hmemR2 x).mp hx).1
      have hstep : layersLoop R L = layersLoop R2 L2 := by
        rw [layersLoop_eq]
        rw [if_neg (by simpa [List.isEmpty_iff] using hRe)]
        rw [← hA]
        show (if added.isEmpty then Except.error (DepError.circular (R.map (·.name)))
          else layersLoop (R.filter fun d => !decide (d ∈ added))
            (L ++ [added.map (·.name)])) = layersLoop R2 L2
        rw [if_neg (by simpa [List.isEmpty_iff] using haddedne), ← hR2, ← hL2]
      have hlen2 : R2.length ≤ fuel := by
        have hlt : R2.length < R.length := by
          rw [hR2]
          refine List.length_filter_lt_length_iff_exists.mpr ⟨r0, hr0R, ?_⟩
          simp [hr0added]
        omega
      have hflatL2 : L2.flatten = L.flatten ++ added.map (·.name) := by
        rw [hL2]
        simp
      have hres2 : ∀ r ∈ R2, ∀ d ∈ depsOf r, d ∈ L2.flatten ∨ ∃ v ∈ R2, v.name = d := by
        intro r hr d hd
        rcases hres r (hR2sub r hr) d hd with hdL | ⟨v, hvR, hvname⟩
        · left
          rw [hflatL2]
          exact List.mem_append_left _ hdL
        · by_cases hv : v ∈ added
          · left
            rw [hflatL2, ← hvname]
            exact List.mem_append_right _ (List.mem_map_of_mem _ hv)
          · right
            exact ⟨v, (hmemR2 v).mpr ⟨hvR, hv⟩, hvname⟩
      have hpermAR : (added.map (·.name) ++ R2.map (·.name)).Perm (R.map (·.name)) := by
        have hcongr : R2 = R.filter fun d =>
            !((depsOf d).all fun needed => decide (needed ∈ L.flatten)) := by
          rw [hR2]
          refine List.filter_congr ?_
          intro x hx
          by_cases hxa : x ∈ added
          · have ht : ((depsOf x).all fun needed => decide (needed ∈ L.flatten)) = true := by
              rw [hA] at hxa
              exact (List.mem_filter.mp hxa).2
            show (!decide (x ∈ added)) = !((depsOf x).all fun needed => decide (needed ∈ L.flatten))
            rw [decide_eq_true hxa, ht]
          · have hf : ((depsOf x).all fun needed => decide (needed ∈ L.flatten)) = false := by
              by_contra hfb
              have ht : ((depsOf x).all fun needed => decide (needed ∈ L.flatten)) = true := by
                revert hfb
                cases ((depsOf x).all fun needed => decide (needed ∈ L.flatten)) <;> simp
              exact hxa (by rw [hA]; exact List.mem_filter.mpr ⟨hx, ht⟩)
            show (!decide (x ∈ added)) = !((depsOf x).all fun needed => decide (needed ∈ L.flatten))
            rw [decide_eq_false hxa, hf]
        have h1 : (added ++ R2).Perm R := by
          rw [hA, hcongr]
          exact List.filter_append_perm _ R
        have h2 := h1.map (·.name)
        rw [List.map_append] at h2
        exact h2
      have hnodup2 : (L2.flatten ++ R2.map (·.name)).Nodup := by
        rw [hflatL2, List.append_assoc]
        exact (List.Perm.append_left L.flatten hpermAR).nodup_iff.mpr hnodup
      have hnc2 : ¬ hasCycle R2 := fun hc => hnc (hasCycle_mono hR2sub hc)
      obtain ⟨out, hrun, ⟨ext, hext⟩, hperm, hlayersne, hlayers⟩ :=
        ih R2 L2 hlen2 hres2 hnodup2 hnc2
      have houtL : out = L ++ ([added.map (·.name)] ++ ext) := by
        rw [hext, hL2, List.append_assoc]
      have hL2len : L2.length = L.length + 1 := by
        rw [hL2]
        simp
      have hlayFirst : layerAt out L.length = added.map (·.name) := by
        rw [houtL, layerAt_append_right (le_refl _)]
        simp [layerAt]
      have htakeL : out.take L.length = L := by
        rw [houtL, List.take_append_of_le_length (le_refl _), List.take_length]
      have htakePred : out.take (L.length - 1) = L.dropLast := by
        rw [houtL, List.take_append_of_le_length (Nat.sub_le _ _), ← List.dropLast_eq_take]
      refine ⟨out, by rw [hstep]; exact hrun, ⟨[added.map (·.name)] ++ ext, houtL⟩, ?_, ?_, ?_⟩
      · refine hperm.trans ?_
        rw [hflatL2, List.append_assoc]
        exact List.Perm.append_left L.flatten hpermAR
      · intro j hj hjlen
        by_cases hj2 : L2.length ≤ j
        · exact hlayersne j hj2 hjlen
        · have hjeq : j = L.length := by
            rw [hL2len] at hj2
            omega
          subst hjeq
          rw [hlayFirst]
          simpa using haddedne
      · intro j hj n hn
        by_cases hj2 : L2.length ≤ j
        · obtain ⟨r, hrR2, hrname, hrdeps, hrmin⟩ := hlayers j hj2 n hn
          refine ⟨r, hR2sub r hrR2, hrname, hrdeps, ?_⟩
          intro _hhard
          refine hrmin ?_
          intro x hx
          obtain ⟨hxR, hxnadd⟩ := (hmemR2 x).mp hx
          have hnot : ¬ ∀ d ∈ depsOf x, d ∈ L.flatten := by
            intro hall
            exact hxnadd ((hmemAdded x).mpr ⟨hxR, hall⟩)
          rw [hL2, List.dropLast_concat]
          exact hnot
        · have hjeq : j = L.length := by
            rw [hL2len] at hj2
            omega
          subst hjeq
          rw [hlayFirst] at hn
          obtain ⟨r, hradded, hrname⟩ := List.mem_map.mp hn
          obtain ⟨hrR, hrdeps⟩ := (hmemAdded r).mp hradded
          refine ⟨r, hrR, hrname, ?_, ?_⟩
          · intro d hd
            rw [htakeL]
            exact hrdeps d hd
          · intro hhard
            rw [htakePred]
            exact hhard r hrR

/-- Under full resolvability the unmet-dependency filter is empty. -/
theorem unmet_nil (items : List DepItem)
    (hres : ∀ u ∈ items, ∀ d ∈ depsOf u, d ∈ items.map (·.name)) :
    ((items.filterMap (·.dependencies)).flatten.filter fun d =>
      !decide (d ∈ items.map (·.name))) = [] := by
  refine List.filter_eq_nil_iff.mpr ?_
  intro d hd
  rw [List.mem_flatten] at hd
  obtain ⟨dl, hdl, hddl⟩ := hd
  rw [List.mem_filterMap] at hdl
  obtain ⟨u, hu, hud⟩ := hdl
  have hmem : d ∈ depsOf u := by
    rw [depsOf, hud]
    exact hddl
  simp [hres u hu d hmem]

/-- When every dependency name resolves, `create_dependency_layers` reaches
the scheduling loop, started with layer 0 and the items left out of it. -/
theorem create_eq_loop (items : List DepItem)
    (hres : ∀ u ∈ items, ∀ d ∈ depsOf u, d ∈ items.map (·.name)) :
    create_dependency_layers items =
      layersLoop
        (items.filter fun i =>
          !decide (i.name ∈ (items.filter fun i' => i'.dependencies.isNone).map (·.name)))
        [(items.filter fun i' => i'.dependencies.isNone).map (·.name)] := by
  simp only [create_dependency_layers]
  rw [unmet_nil items hres]
  simp

/--
Once stuck, forever stuck: given an explicit dependency cycle among the
remaining items whose names are all still unscheduled, the loop ends in a
circular-dependency error whose reported stuck set contains every item of
the cycle and only names of remaining items.
-/
theorem layersLoop_stuck :
    ∀ (fuel : ℕ) (R : List DepItem) (L : List (List String)) (u : DepItem) (l : List DepItem),
    R.length ≤ fuel →
    u ∈ R → (∀ x ∈ l, x ∈ R) → List.Chain depEdge u (l ++ [u]) →
    (R.map (·.name)).Nodup →
    (∀ x ∈ u :: l, x.name ∉ L.flatten) →
    ∃ stuck, layersLoop R L = .error (.circular stuck) ∧
      u.name ∈ stuck ∧ (∀ x ∈ l, x.name ∈ stuck) ∧
      ∀ nm ∈ stuck, nm ∈ R.map (·.name) := by
  intro fuel
  induction fuel with
  | zero =>
    intro R L u l hlen hu hl hchain hnodup hout
    have hR : R = [] := List.length_eq_zero.mp (Nat.le_zero.mp hlen)
    subst hR
    exact absurd hu (List.not_mem_nil u)
  | succ fuel ih =>
    intro R L u l hlen hu hl hchain hnodup hout
    have hmemsucc : ∀ x ∈ u :: l, ∃ y ∈ u :: l, depEdge x y := by
      intro x hx
      have hm : (l ++ [u]) ≠ [] := by simp
      have hdl : (l ++ [u]).dropLast = l := List.dropLast_concat
      have hx' : x ∈ u :: (l ++ [u]).dropLast := by
        rw [hdl]
        exact hx
      obtain ⟨y, hy, hxy⟩ := chain_mem_succ (l ++ [u]) u hm hchain x hx'
      rcases List.mem_append.mp hy with hy | hy
      · exact ⟨y, List.mem_cons_of_mem _ hy, hxy⟩
      · rw [List.mem_singleton] at hy
        exact ⟨y, by rw [hy]; exact List.mem_cons_self u l, hxy⟩
    have hnotadded : ∀ x ∈ u :: l,
        x ∉ R.filter fun d => (depsOf d).all fun needed => decide (needed ∈ L.flatten) := by
      intro x hx hmem
      obtain ⟨-, hall⟩ := mem_added_iff.mp hmem
      obtain ⟨y, hy, hxy⟩ := hmemsucc x hx
      exact hout y hy (hall y.name hxy)
    set added := R.filter fun d => (depsOf d).all fun needed => decide (needed ∈ L.flatten) with hA
    by_cases hAe : added = []
    · refine ⟨R.map (·.name), ?_, List.mem_map_of_mem _ hu,
        fun x hx => List.mem_map_of_mem _ (hl x hx), fun nm hnm => hnm⟩
      rw [layersLoop_eq]
      rw [if_neg (by simpa [List.isEmpty_iff] using List.ne_nil_of_mem hu), ← hA]
      show (if added.isEmpty then Except.error (DepError.circular (R.map (·.name)))
        else layersLoop (R.filter fun d => !decide (d ∈ added))
          (L ++ [added.map (·.name)])) = Except.error (DepError.circular (R.map (·.name)))
      rw [if_pos (by simp [hAe])]
    · set R2 := R.filter fun d => !decide (d ∈ added) with hR2
      set L2 := L ++ [added.map (·.name)] with hL2
      have hstep : layersLoop R L = layersLoop R2 L2 := by
        rw [layersLoop_eq]
        rw [if_neg (by simpa [List.isEmpty_iff] using List.ne_nil_of_mem hu), ← hA]
        show (if added.isEmpty then Except.error (DepError.circular (R.map (·.name)))
          else layersLoop (R.filter fun d => !decide (d ∈ added))
            (L ++ [added.map (·.name)])) = layersLoop R2 L2
        rw [if_neg (by simpa [List.isEmpty_iff] using hAe), ← hR2, ← hL2]
      have hmemR2 : ∀ x, x ∈ R2 ↔ x ∈ R ∧ x ∉ added := by
        intro x
        rw [hR2, List.mem_filter]
        simp
      have hR2sub : ∀ x ∈ R2, x ∈ R := fun x hx => ((hmemR2 x).mp hx).1
      have hlen2 : R2.length ≤ fuel := by
        have hlt : R2.length < R.length := by
          obtain ⟨a0, ha0⟩ := List.exists_mem_of_ne_nil added hAe
          have ha0R : a0 ∈ R := by
            have h := ha0
            rw [hA] at h
            exact (List.mem_filter.mp h).1
          rw [hR2]
          exact List.length_filter_lt_length_iff_exists.mpr ⟨a0, ha0R, by simp [ha0]⟩
        omega
      have hu2 : u ∈ R2 := (hmemR2 u).mpr ⟨hu, hnotadded u (List.mem_cons_self u l)⟩
      have hl2 : ∀ x ∈ l, x ∈ R2 :=
        fun x hx => (hmemR2 x).mpr ⟨hl x hx, hnotadded x (List.mem_cons_of_mem _ hx)⟩
      have hnodup2 : (R2.map (·.name)).Nodup := by
        have hsub : R2.Sublist R := by
          rw [hR2]
          exact List.filter_sublist R
        exact (hsub.map (·.name)).nodup hnodup
      have hout2 : ∀ x ∈ u :: l, x.name ∉ L2.flatten := by
        intro x hx hmem
        rw [hL2] at hmem
        rw [show (L ++ [added.map (·.name)]).flatten
            = L.flatten ++ added.map (·.name) from by simp] at hmem
        rcases List.mem_append.mp hmem with hmem | hmem
        · exact hout x hx hmem
        · obtain ⟨a, haadded, haname⟩ := List.mem_map.mp hmem
          have haR : a ∈ R := by
            have h := haadded
            rw [hA] at h
            exact (List.mem_filter.mp h).1
          have hxR : x ∈ R := by
            rcases List.mem_cons.mp hx with rfl | hx'
            · exact hu
            · exact hl x hx'
          have hax : a = x := List.inj_on_of_nodup_map hnodup haR hxR haname
          exact hnotadded x hx (hax ▸ haadded)
      obtain ⟨stuck, hrun, hustuck, hlstuck, hsub⟩ :=
        ih R2 L2 u l hlen2 hu2 hl2 hchain hnodup2 hout2
      refine ⟨stuck, by rw [hstep]; exact hrun, hustuck, hlstuck, ?_⟩
      intro nm hnm
      obtain ⟨r, hrR2, hrname⟩ := List.mem_map.mp (hsub nm hnm)
      exact hrname ▸ List.mem_map_of_mem _ (hR2sub r hrR2)

/-- Under unique names, a unit's name is in layer 0 iff it has no dependency
list. -/
theorem mem_layer0_iff {items : List DepItem}
    (hnodup : (items.map (·.name)).Nodup) {u : DepItem} (hu : u ∈ items) :
    (u.name ∈ (items.filter fun i' => i'.dependencies.isNone).map (·.name)) ↔
      u.dependencies = none := by
  constructor
  · intro h
    obtain ⟨i, hi, hiname⟩ := List.mem_map.mp h
    obtain ⟨hiitems, hinone⟩ := List.mem_filter.mp hi
    have hiu : i = u := List.inj_on_of_nodup_map hnodup hiitems hu hiname
    subst hiu
    simpa [Option.isNone_iff_eq_none] using hinone
  · intro h
    refine List.mem_map_of_mem _ (List.mem_filter.mpr ⟨hu, ?_⟩)
    simp [h]

/--
Combined behaviour of `create_dependency_layers` on a fully resolvable,
acyclic collection with unique names: it succeeds, the layers enumerate the
names exactly, layer 0 is exactly the dependency-less units, layers past 0
are nonempty and consist of units whose dependencies are all scheduled
strictly earlier — and, when no unit carries an empty (as opposed to absent)
dependency list, of units that could not have been scheduled one pass
earlier.
-/
theorem create_spec (items : List DepItem)
    (hnodup : (items.map (·.name)).Nodup)
    (hres : ∀ u ∈ items, ∀ d ∈ depsOf u, d ∈ items.map (·.name))
    (hacyc : ¬ hasCycle items) :
    ∃ layers, create_dependency_layers items = .ok layers ∧
      layers.flatten.Perm (items.map (·.name)) ∧
      layerAt layers 0 = (items.filter fun i' => i'.dependencies.isNone).map (·.name) ∧
      (∀ j, 1 ≤ j → j < layers.length → layerAt layers j ≠ []) ∧
      (∀ j, 1 ≤ j → ∀ n ∈ layerAt layers j,
        ∃ r ∈ items, r.name = n ∧ r.dependencies ≠ none ∧
          (∀ d ∈ depsOf r, d ∈ (layers.take j).flatten) ∧
          ((∀ x ∈ items, x.dependencies ≠ none → depsOf x ≠ []) →
            ¬ ∀ d ∈ depsOf r, d ∈ (layers.take (j - 1)).flatten)) := by
  set layer0 := (items.filter fun i' => i'.dependencies.isNone).map (·.name) with hlayer0
  set R0 := items.filter fun i => !decide (i.name ∈ layer0) with hR0
  have hmemR0 : ∀ x, x ∈ R0 ↔ x ∈ items ∧ x.dependencies ≠ none := by
    intro x
    rw [hR0, List.mem_filter]
    constructor
    · rintro ⟨hxi, hxf⟩
      refine ⟨hxi, ?_⟩
      intro hnone
      have : x.name ∈ layer0 := (mem_layer0_iff hnodup hxi).mpr hnone
      simp [this] at hxf
    · rintro ⟨hxi, hxsome⟩
      refine ⟨hxi, ?_⟩
      have : x.name ∉ layer0 := fun hmem => hxsome ((mem_layer0_iff hnodup hxi).mp hmem)
      simp [this]
  have hR0sub : ∀ x ∈ R0, x ∈ items := fun x hx => ((hmemR0 x).mp hx).1
  have hflatL0 : ([layer0] : List (List String)).flatten = layer0 := by simp
  have hres0 : ∀ r ∈ R0, ∀ d ∈ depsOf r,
      d ∈ ([layer0] : List (List String)).flatten ∨ ∃ v ∈ R0, v.name = d := by
    intro r hr d hd
    obtain ⟨v, hv, hvname⟩ := List.mem_map.mp (hres r (hR0sub r hr) d hd)
    by_cases hvnone : v.dependencies = none
    · left
      rw [hflatL0, ← hvname]
      exact (mem_layer0_iff hnodup hv).mpr hvnone
    · right
      exact ⟨v, (hmemR0 v).mpr ⟨hv, hvnone⟩, hvname⟩
  have hpermR0 : (layer0 ++ R0.map (·.name)).Perm (items.map (·.name)) := by
    have hcongr : R0 = items.filter fun i => !(i.dependencies.isNone) := by
      rw [hR0]
      refine List.filter_congr ?_
      intro x hx
      by_cases hxnone : x.dependencies = none
      · have h1 : x.name ∈ layer0 := (mem_layer0_iff hnodup hx).mpr hxnone
        have h2 : x.dependencies.isNone = true := by simp [hxnone]
        rw [decide_eq_true h1, h2]
      · have h1 : x.name ∉ layer0 := fun hmem => hxnone ((mem_layer0_iff hnodup hx).mp hmem)
        have h2 : x.dependencies.isNone = false := by
          cases hdep : x.dependencies with
          | none => exact absurd hdep hxnone
          | some dl => rfl
        rw [decide_eq_false h1, h2]
    have h1 : ((items.filter fun i' => i'.dependencies.isNone) ++ R0).Perm items := by
      rw [hcongr]
      exact List.filter_append_perm _ items
    have h2 := h1.map (·.name)
    rw [List.map_append] at h2
    rw [hlayer0]
    exact h2
  have hnodup0 : (([layer0] : List (List String)).flatten ++ R0.map (·.name)).Nodup := by
    rw [hflatL0]
    exact hpermR0.nodup_iff.mpr hnodup
  have hnc0 : ¬ hasCycle R0 := fun hc => hacyc (hasCycle_mono hR0sub hc)
  obtain ⟨out, hrun, ⟨ext, hext⟩, hperm, hlayne, hlay⟩ :=
    layersLoop_spec R0.length R0 [layer0] (le_refl _) hres0 hnodup0 hnc0
  have hcreate : create_dependency_layers items = .ok out := by
    rw [create_eq_loop items hres, ← hlayer0, ← hR0]
    exact hrun
  have hL0len : ([layer0] : List (List String)).length = 1 := rfl
  refine ⟨out, hcreate, ?_, ?_, ?_, ?_⟩
  · refine hperm.trans ?_
    rw [hflatL0]
    exact hpermR0
  · rw [hext, layerAt_append_left (by simp), hlayer0]
    simp [layerAt]
  · intro j hj1 hjlen
    exact hlayne j (by rw [hL0len]; omega) hjlen
  · intro j hj1 n hn
    obtain ⟨r, hrR0, hrname, hrdeps, hrmin⟩ := hlay j (by rw [hL0len]; omega) n hn
    obtain ⟨hritems, hrsome⟩ := (hmemR0 r).mp hrR0
    refine ⟨r, hritems, hrname, hrsome, hrdeps, ?_⟩
    intro houter
    refine hrmin ?_
    intro x hx
    obtain ⟨hxitems, hxsome⟩ := (hmemR0 x).mp hx
    have hxne : depsOf x ≠ [] := houter x hxitems hxsome
    obtain ⟨d, hd⟩ := List.exists_mem_of_ne_nil _ hxne
    intro hall
    have := hall d hd
    simp at this

/--
**C1**  For every collection of units (unique names, as the data model
requires) whose dependency references all name existing units and whose
dependency graph is acyclic, `create_dependency_layers` returns a sequence
of layers in which every unit of the input appears exactly once (the
flattened layers are a permutation of the unit names, and each name counts
once), and every dependency of a unit lies in a layer with strictly smaller
index than the unit's own layer.
-/
theorem claim_C1 (items : List DepItem)
    (hnodup : (items.map (·.name)).Nodup)
    (hres : ∀ u ∈ items, ∀ d ∈ depsOf u, d ∈ items.map (·.name))
    (hacyc : ¬ hasCycle items) :
    ∃ layers, create_dependency_layers items = .ok layers ∧
      layers.flatten.Perm (items.map (·.name)) ∧
      (∀ u ∈ items, layers.flatten.count u.name = 1) ∧
      ∀ u ∈ items, ∀ d ∈ depsOf u, ∀ j k,
        u.name ∈ layerAt layers j → d ∈ layerAt layers k → k < j := by
  obtain ⟨layers, hrun, hperm, hlay0, hlayne, hlay⟩ := create_spec items hnodup hres hacyc
  have hflnodup : layers.flatten.Nodup := hperm.nodup_iff.mpr hnodup
  refine ⟨layers, hrun, hperm, ?_, ?_⟩
  · intro u hu
    exact List.count_eq_one_of_mem hflnodup (hperm.mem_iff.mpr (List.mem_map_of_mem _ hu))
  · intro u hu d hd j k huj hdk
    have hdepsne : depsOf u ≠ [] := List.ne_nil_of_mem hd
    have hunone : u.dependencies ≠ none := by
      intro h
      rw [depsOf, h] at hdepsne
      exact hdepsne rfl
    have hj1 : 1 ≤ j := by
      by_contra hj0
      have hj0' : j = 0 := by omega
      subst hj0'
      rw [hlay0] at huj
      exact hunone ((mem_layer0_iff hnodup hu).mp huj)
    obtain ⟨r, hri, hrname, -, hrdeps, -⟩ := hlay j hj1 u.name huj
    have hru : r = u := List.inj_on_of_nodup_map hnodup hri hu hrname
    subst hru
    obtain ⟨k', hk'j, hdk'⟩ := mem_take_flatten.mp (hrdeps d hd)
    have hkk : k = k' := layer_of_mem_unique hflnodup hdk hdk'
    omega

/-- Closed instance of `claim_C1`: two units `a` and `b`, `b` depending on
`a`, satisfy its hypotheses and hence its conclusion. -/
theorem claim_C1_witness :
    (([⟨"a", none⟩, ⟨"b", some ["a"]⟩] : List DepItem).map (·.name)).Nodup ∧
    (∀ u ∈ ([⟨"a", none⟩, ⟨"b", some ["a"]⟩] : List DepItem), ∀ d ∈ depsOf u,
      d ∈ ([⟨"a", none⟩, ⟨"b", some ["a"]⟩] : List DepItem).map (·.name)) ∧
    (¬ hasCycle [⟨"a", none⟩, ⟨"b", some ["a"]⟩]) ∧
    (∃ layers, create_dependency_layers [⟨"a", none⟩, ⟨"b", some ["a"]⟩] = .ok layers ∧
      layers.flatten.Perm (([⟨"a", none⟩, ⟨"b", some ["a"]⟩] : List DepItem).map (·.name)) ∧
      (∀ u ∈ ([⟨"a", none⟩, ⟨"b", some ["a"]⟩] : List DepItem),
        layers.flatten.count u.name = 1) ∧
      ∀ u ∈ ([⟨"a", none⟩, ⟨"b", some ["a"]⟩] : List DepItem), ∀ d ∈ depsOf u, ∀ j k,
        u.name ∈ layerAt layers j → d ∈ layerAt layers k → k < j) :=
  ⟨by decide, by decide,
    no_cycle_of_rank (fun u => if u.name = "a" then 0 else 1) (by decide),
    claim_C1 _ (by decide) (by decide)
      (no_cycle_of_rank (fun u => if u.name = "a" then 0 else 1) (by decide))⟩

/--
**C4, counterexample**  The claim states that any collection containing a
dependency cycle yields a circular-dependency error.  The code checks unmet
dependencies first: this collection contains the cycle `a → b → a`, yet the
run reports the unmet dependency `z` of `c` and never a circular error.
-/
theorem claim_C4_counterexample :
    hasCycle [⟨"a", some ["b"]⟩, ⟨"b", some ["a"]⟩, ⟨"c", some ["z"]⟩] ∧
    create_dependency_layers [⟨"a", some ["b"]⟩, ⟨"b", some ["a"]⟩, ⟨"c", some ["z"]⟩]
      = .error (.unmet ["z"]) ∧
    ¬ ∃ stuck,
      create_dependency_layers [⟨"a", some ["b"]⟩, ⟨"b", some ["a"]⟩, ⟨"c", some ["z"]⟩]
        = .error (.circular stuck) := by
  refine ⟨⟨⟨"a", some ["b"]⟩, [⟨"b", some ["a"]⟩], by decide, by decide,
      List.Chain.cons (by decide) (List.Chain.cons (by decide) List.Chain.nil)⟩, ?_, ?_⟩
  · simp +decide [create_dependency_layers, layersLoop_eq]
  · rintro ⟨stuck, hstuck⟩
    rw [show create_dependency_layers [⟨"a", some ["b"]⟩, ⟨"b", some ["a"]⟩, ⟨"c", some ["z"]⟩]
        = .error (.unmet ["z"]) from by simp +decide [create_dependency_layers, layersLoop_eq]]
      at hstuck
    simp at hstuck

/--
**C4, amended**  For every collection of units (unique names) whose
dependency references all name existing units and whose dependency graph
contains a cycle — including a unit naming itself — `create_dependency_layers`
signals a circular-dependency error whose reported stuck set contains every
unit of the cycle and only names of input units; it never returns a (partial)
layering.  (Amendment: when a dependency additionally fails to resolve, the
unmet-dependency error is reported instead, see the counterexample.)
-/
theorem claim_C4 (items : List DepItem) (u : DepItem) (l : List DepItem)
    (hnodup : (items.map (·.name)).Nodup)
    (hres : ∀ x ∈ items, ∀ d ∈ depsOf x, d ∈ items.map (·.name))
    (hu : u ∈ items) (hl : ∀ x ∈ l, x ∈ items)
    (hchain : List.Chain depEdge u (l ++ [u])) :
    ∃ stuck, create_dependency_layers items = .error (.circular stuck) ∧
      stuck ≠ [] ∧ u.name ∈ stuck ∧ (∀ x ∈ l, x.name ∈ stuck) ∧
      ∀ nm ∈ stuck, nm ∈ items.map (·.name) := by
  set layer0 := (items.filter fun i' => i'.dependencies.isNone).map (·.name) with hlayer0
  set R0 := items.filter fun i => !decide (i.name ∈ layer0) with hR0
  -- every cycle member has a dependency, hence a nonempty dependency list
  have hmemsucc : ∀ x ∈ u :: l, ∃ y ∈ u :: l, depEdge x y := by
    intro x hx
    have hm : (l ++ [u]) ≠ [] := by simp
    have hdl : (l ++ [u]).dropLast = l := List.dropLast_concat
    have hx' : x ∈ u :: (l ++ [u]).dropLast := by
      rw [hdl]
      exact hx
    obtain ⟨y, hy, hxy⟩ := chain_mem_succ (l ++ [u]) u hm hchain x hx'
    rcases List.mem_append.mp hy with hy | hy
    · exact ⟨y, List.mem_cons_of_mem _ hy, hxy⟩
    · rw [List.mem_singleton] at hy
      exact ⟨y, by rw [hy]; exact List.mem_cons_self u l, hxy⟩
  have hcycitems : ∀ x ∈ u :: l, x ∈ items := by
    intro x hx
    rcases List.mem_cons.mp hx with rfl | hx'
    · exact hu
    · exact hl x hx'
  have hcycR0 : ∀ x ∈ u :: l, x ∈ R0 := by
    intro x hx
    have hxdep : depsOf x ≠ [] := by
      obtain ⟨y, -, hxy⟩ := hmemsucc x hx
      exact List.ne_nil_of_mem hxy
    have hxsome : x.dependencies ≠ none := by
      intro hnone
      rw [depsOf, hnone] at hxdep
      exact hxdep rfl
    rw [hR0, List.mem_filter]
    refine ⟨hcycitems x hx, ?_⟩
    have hnot : x.name ∉ layer0 :=
      fun hmem => hxsome ((mem_layer0_iff hnodup (hcycitems x hx)).mp hmem)
    simp [hnot]
  have hR0sub : ∀ x ∈ R0, x ∈ items := by
    intro x hx
    rw [hR0] at hx
    exact (List.mem_filter.mp hx).1
  have hnodup0 : (R0.map (·.name)).Nodup := by
    have hsub : R0.Sublist items := by
      rw [hR0]
      exact List.filter_sublist items
    exact (hsub.map (·.name)).nodup hnodup
  have hout0 : ∀ x ∈ u :: l, x.name ∉ ([layer0] : List (List String)).flatten := by
    intro x hx hmem
    rw [show ([layer0] : List (List String)).flatten = layer0 from by simp] at hmem
    have hxdep : depsOf x ≠ [] := by
      obtain ⟨y, -, hxy⟩ := hmemsucc x hx
      exact List.ne_nil_of_mem hxy
    have hxsome : x.dependencies ≠ none :=
      fun hnone => hxdep (by rw [depsOf, hnone]; rfl)
    exact hxsome ((mem_layer0_iff hnodup (hcycitems x hx)).mp hmem)
  obtain ⟨stuck, hrun, hustuck, hlstuck, hsub⟩ :=
    layersLoop_stuck R0.length R0 [layer0] u l (le_refl _)
      (hcycR0 u (List.mem_cons_self u l))
      (fun x hx => hcycR0 x (List.mem_cons_of_mem _ hx))
      hchain hnodup0 hout0
  refine ⟨stuck, ?_, List.ne_nil_of_mem hustuck, hustuck, hlstuck, ?_⟩
  · rw [create_eq_loop items hres, ← hlayer0, ← hR0]
    exact hrun
  · intro nm hnm
    obtain ⟨r, hrR0, hrname⟩ := List.mem_map.mp (hsub nm hnm)
    exact hrname ▸ List.mem_map_of_mem _ (hR0sub r hrR0)

/-- Closed instance of `claim_C4` (amended): a unit naming itself as its own
dependency is reported as a circular dependency. -/
theorem claim_C4_witness :
    (([⟨"a", some ["a"]⟩] : List DepItem).map (·.name)).Nodup ∧
    (∀ x ∈ ([⟨"a", some ["a"]⟩] : List DepItem), ∀ d ∈ depsOf x,
      d ∈ ([⟨"a", some ["a"]⟩] : List DepItem).map (·.name)) ∧
    (⟨"a", some ["a"]⟩ : DepItem) ∈ ([⟨"a", some ["a"]⟩] : List DepItem) ∧
    List.Chain depEdge ⟨"a", some ["a"]⟩ ([] ++ [⟨"a", some ["a"]⟩]) ∧
    (∃ stuck, create_dependency_layers [⟨"a", some ["a"]⟩] = .error (.circular stuck) ∧
      stuck ≠ [] ∧ (⟨"a", some ["a"]⟩ : DepItem).name ∈ stuck ∧
      (∀ x ∈ ([] : List DepItem), x.name ∈ stuck) ∧
      ∀ nm ∈ stuck, nm ∈ ([⟨"a", some ["a"]⟩] : List DepItem).map (·.name)) :=
  ⟨by decide, by decide, by decide,
    List.Chain.cons (by decide) List.Chain.nil,
    claim_C4 _ _ [] (by decide) (by decide) (by decide) (by decide)
      (List.Chain.cons (by decide) List.Chain.nil)⟩

/--
**C9**  For every acyclic, fully resolvable collection (unique names) in
which each unit's dependency list is either absent or non-empty,
`create_dependency_layers` places every unit in the earliest layer
consistent with its dependencies: a unit with no dependency list is in
layer 0, every other unit's layer index exceeds the index of each of its
dependencies' layers and is exactly one more than the largest of them (some
dependency lies in the immediately preceding layer), and consequently every
layer after the first contains a unit with a dependency in the immediately
preceding layer.
-/
theorem claim_C9 (items : List DepItem)
    (hnodup : (items.map (·.name)).Nodup)
    (hres : ∀ u ∈ items, ∀ d ∈ depsOf u, d ∈ items.map (·.name))
    (hacyc : ¬ hasCycle items)
    (hnonempty : ∀ u ∈ items, u.dependencies ≠ some []) :
    ∃ layers, create_dependency_layers items = .ok layers ∧
      layers.flatten.Perm (items.map (·.name)) ∧
      (∀ u ∈ items, u.dependencies = none → u.name ∈ layerAt layers 0) ∧
      (∀ u ∈ items, ∀ dl, u.dependencies = some dl → ∀ j, u.name ∈ layerAt layers j →
        1 ≤ j ∧ (∀ d ∈ dl, ∀ k, d ∈ layerAt layers k → k < j) ∧
        ∃ d ∈ dl, d ∈ layerAt layers (j - 1)) ∧
      (∀ j, 1 ≤ j → j < layers.length →
        ∃ n ∈ layerAt layers j, ∃ u ∈ items, u.name = n ∧
          ∃ d ∈ depsOf u, d ∈ layerAt layers (j - 1)) := by
  obtain ⟨layers, hrun, hperm, hlay0, hlayne, hlay⟩ := create_spec items hnodup hres hacyc
  have hflnodup : layers.flatten.Nodup := hperm.nodup_iff.mpr hnodup
  have houter : ∀ x ∈ items, x.dependencies ≠ none → depsOf x ≠ [] := by
    intro x hx hxsome hnil
    cases hdep : x.dependencies with
    | none => exact hxsome hdep
    | some dl =>
      have hdl : dl = [] := by
        rw [depsOf, hdep] at hnil
        exact hnil
      exact hnonempty x hx (by rw [hdep, hdl])
  refine ⟨layers, hrun, hperm, ?_, ?_, ?_⟩
  · intro u hu hnone
    rw [hlay0]
    exact (mem_layer0_iff hnodup hu).mpr hnone
  · intro u hu dl hdl j huj
    have hdepsOf : depsOf u = dl := by
      rw [depsOf, hdl]
      rfl
    have hj1 : 1 ≤ j := by
      by_contra hj0
      have hj0' : j = 0 := by omega
      subst hj0'
      rw [hlay0] at huj
      have hnone := (mem_layer0_iff hnodup hu).mp huj
      rw [hnone] at hdl
      exact Option.noConfusion hdl
    obtain ⟨r, hri, hrname, -, hrdeps, hrmin⟩ := hlay j hj1 u.name huj
    have hru : r = u := List.inj_on_of_nodup_map hnodup hri hu hrname
    subst hru
    refine ⟨hj1, ?_, ?_⟩
    · intro d hd k hdk
      obtain ⟨k', hk'j, hdk'⟩ := mem_take_flatten.mp (hrdeps d (by rw [hdepsOf]; exact hd))
      have hkk : k = k' := layer_of_mem_unique hflnodup hdk hdk'
      omega
    · have hmin := hrmin houter
      push_neg at hmin
      obtain ⟨d, hd, hdnot⟩ := hmin
      obtain ⟨k, hkj, hdk⟩ := mem_take_flatten.mp (hrdeps d hd)
      have hknot : ¬ (k < j - 1) := fun hk => hdnot (mem_take_flatten.mpr ⟨k, hk, hdk⟩)
      have hkeq : k = j - 1 := by omega
      refine ⟨d, ?_, hkeq ▸ hdk⟩
      rw [← hdepsOf]
      exact hd
  · intro j hj1 hjlen
    have hne := hlayne j hj1 hjlen
    obtain ⟨n, hn⟩ := List.exists_mem_of_ne_nil _ hne
    obtain ⟨r, hri, hrname, -, hrdeps, hrmin⟩ := hlay j hj1 n hn
    have hmin := hrmin houter
    push_neg at hmin
    obtain ⟨d, hd, hdnot⟩ := hmin
    obtain ⟨k, hkj, hdk⟩ := mem_take_flatten.mp (hrdeps d hd)
    have hknot : ¬ (k < j - 1) := fun hk => hdnot (mem_take_flatten.mpr ⟨k, hk, hdk⟩)
    have hkeq : k = j - 1 := by omega
    exact ⟨n, hn, r, hri, hrname, d, hd, hkeq ▸ hdk⟩

/-- Closed instance of `claim_C9`: `a` (no dependencies), `b` (depends on
`a`) and `c` (depends on `a` and `b`) satisfy its hypotheses and hence its
conclusion. -/
theorem claim_C9_witness :
    (([⟨"a", none⟩, ⟨"b", some ["a"]⟩, ⟨"c", some ["a", "b"]⟩] : List DepItem).map
      (·.name)).Nodup ∧
    (∀ u ∈ ([⟨"a", none⟩, ⟨"b", some ["a"]⟩, ⟨"c", some ["a", "b"]⟩] : List DepItem),
      ∀ d ∈ depsOf u,
      d ∈ ([⟨"a", none⟩, ⟨"b", some ["a"]⟩, ⟨"c", some ["a", "b"]⟩] : List DepItem).map
        (·.name)) ∧
    (¬ hasCycle [⟨"a", none⟩, ⟨"b", some ["a"]⟩, ⟨"c", some ["a", "b"]⟩]) ∧
    (∀ u ∈ ([⟨"a", none⟩, ⟨"b", some ["a"]⟩, ⟨"c", some ["a", "b"]⟩] : List DepItem),
      u.dependencies ≠ some []) ∧
    (∃ layers,
      create_dependency_layers [⟨"a", none⟩, ⟨"b", some ["a"]⟩, ⟨"c", some ["a", "b"]⟩]
        = .ok layers ∧
      layers.flatten.Perm
        (([⟨"a", none⟩, ⟨"b", some ["a"]⟩, ⟨"c", some ["a", "b"]⟩] : List DepItem).map
          (·.name)) ∧
      (∀ u ∈ ([⟨"a", none⟩, ⟨"b", some ["a"]⟩, ⟨"c", some ["a", "b"]⟩] : List DepItem),
        u.dependencies = none → u.name ∈ layerAt layers 0) ∧
      (∀ u ∈ ([⟨"a", none⟩, ⟨"b", some ["a"]⟩, ⟨"c", some ["a", "b"]⟩] : List DepItem),
        ∀ dl, u.dependencies = some dl → ∀ j, u.name ∈ layerAt layers j →
        1 ≤ j ∧ (∀ d ∈ dl, ∀ k, d ∈ layerAt layers k → k < j) ∧
        ∃ d ∈ dl, d ∈ layerAt layers (j - 1)) ∧
      (∀ j, 1 ≤ j → j < layers.length →
        ∃ n ∈ layerAt layers j,
          ∃ u ∈ ([⟨"a", none⟩, ⟨"b", some ["a"]⟩, ⟨"c", some ["a", "b"]⟩] : List DepItem),
            u.name = n ∧ ∃ d ∈ depsOf u, d ∈ layerAt layers (j - 1))) :=
  ⟨by decide, by decide,
    no_cycle_of_rank (fun u => if u.name = "a" then 0 else if u.name = "b" then 1 else 2)
      (by decide),
    by decide,
    claim_C9 _ (by decide) (by decide)
      (no_cycle_of_rank (fun u => if u.name = "a" then 0 else if u.name = "b" then 1 else 2)
        (by decide))
      (by decide)⟩

/-- Decidable equality for `Except` values (needed by the derived instances
below). -/
instance {e a : Type} [DecidableEq e] [DecidableEq a] : DecidableEq (Except e a) := fun x y =>
  match x, y with
  | .error e1, .error e2 =>
    if h : e1 = e2 then isTrue (by rw [h]) else isFalse fun hc => h (Except.error.inj hc)
  | .error _, .ok _ => isFalse fun hc => Except.noConfusion hc
  | .ok _, .error _ => isFalse fun hc => Except.noConfusion hc
  | .ok x1, .ok y1 =>
    if h : x1 = y1 then isTrue (by rw [h]) else isFalse fun hc => h (Except.ok.inj hc)

/--
Abstract behaviour of a `Tool` during one `install_tools` run: the boolean
outcomes the orchestrator observes from the tool's `check()`, `initialize()`
and `destroy()` calls (each called at most once per run).
-/
structure MTool where
  name : String
  checkResult : Bool
  initResult : Bool
  destroyResult : Bool
deriving DecidableEq, Repr

/--
Inner loop of `Starter.install_tools` over the tools of one layer, in list
order: a tool whose `check()` succeeds is skipped ("already installed");
otherwise `initialize()` is called and the tool's name is appended to the
failed or to the successful list.  Returns `(attempted, failed, successful)`
where `attempted` records every tool on which `initialize()` was called (the
source tracks only the latter two lists; `attempted` is their disjoint
cover, made explicit as an observable).
-/
def toolLayerPass : List MTool → List String × List String × List String
  | [] => ([], [], [])
  | t :: ts =>
    if t.checkResult then toolLayerPass ts
    else
      let rest := toolLayerPass ts
      if t.initResult then (t.name :: rest.1, rest.2.1, t.name :: rest.2.2)
      else (t.name :: rest.1, t.name :: rest.2.1, rest.2.2)

/--
Outer loop of `Starter.install_tools` over the dependency layers: each layer
processes the tools whose name appears in it, in `tools` order; when
`fail_early` is set and the layer recorded a failure, the walk stops after
the current layer (`early_exit` only breaks the outer loop).
-/
def toolLayersPass (tools : List MTool) (fail_early : Bool) :
    List (List String) → List String × List String × List String
  | [] => ([], [], [])
  | layer :: rest =>
    let cur := toolLayerPass (tools.filter fun t => decide (t.name ∈ layer))
    if fail_early && !cur.2.1.isEmpty then cur
    else
      let further := toolLayersPass tools fail_early rest
      (cur.1 ++ further.1, cur.2.1 ++ further.2.1, cur.2.2 ++ further.2.2)

/--
The rollback loop of `install_tools`: walk all tools in order and destroy
those whose name is in the successful list; a failing destroy is
process-fatal (`sys.exit(1)`), modelled as `.error` carrying the names
destroyed before the fatal one together with the name whose destroy failed;
otherwise `.ok` carries all destroyed names in order.
-/
def toolRollback (successful : List String) :
    List MTool → List String → Except (List String × String) (List String)
  | [], destroyed => .ok destroyed
  | t :: ts, destroyed =>
    if decide (t.name ∈ successful) then
      if t.destroyResult then toolRollback successful ts (destroyed ++ [t.name])
      else .error (destroyed, t.name)
    else toolRollback successful ts destroyed

/-- Observable outcome of `install_tools` / `install_modules`: `success`
(return `True`), `nothingToDo` (empty unit list, return `False`), or
`failure` with the failed-name list and — when teardown ran — the rollback
result. -/
inductive InstallOutcome where
  | success
  | nothingToDo
  | failure (failed : List String)
      (rollback : Option (Except (List String × String) (List String)))
deriving DecidableEq, Repr

/--
`Starter.install_tools` from `startout/starterfile.py`: "Nothing to do"
(returning `False`) on an empty tool list; otherwise walk the layers and, if
any tool failed, report the failed list and — when `teardown_on_failure` —
destroy the successfully installed tools.
-/
def install_tools (tools : List MTool) (tool_dependencies : List (List String))
    (teardown_on_failure fail_early : Bool) : InstallOutcome :=
  if tools.isEmpty then .nothingToDo
  else
    let fs := toolLayersPass tools fail_early tool_dependencies
    if fs.2.1.isEmpty then .success
    else .failure fs.2.1
      (if teardown_on_failure then some (toolRollback fs.2.2 tools []) else none)

/-- The names on which `destroy` was called during a rollback, in call
order: every successfully destroyed name plus, in the fatal case, the name
whose destroy failed. -/
def destroyCalls : Except (List String × String) (List String) → List String
  | .ok destroyed => destroyed
  | .error (destroyed, bad) => destroyed ++ [bad]

/--
Abstract behaviour of a `Module` during one `install_modules` run:
`initialize()` either raises — `.error ()`, e.g. the `OSError` of
`GitModule.initialize` when the git executable is missing — or returns a
boolean; `destroy()` returns a boolean.
-/
structure MModule where
  name : String
  initBehavior : Except Unit Bool
  destroyResult : Bool
deriving DecidableEq, Repr

/--
Inner loop of `Starter.install_modules` over one layer: every module of the
layer is attempted (modules have no check-skip); an exception raised by
`initialize` propagates immediately, abandoning the recorded lists.
Returns `(attempted, failed, successful)`.
-/
def moduleLayerPass : List MModule → Except Unit (List String × List String × List String)
  | [] => .ok ([], [], [])
  | m :: ms =>
    match m.initBehavior with
    | .error () => .error ()
    | .ok b =>
      match moduleLayerPass ms with
      | .error e => .error e
      | .ok rest =>
        if b then .ok (m.name :: rest.1, rest.2.1, m.name :: rest.2.2)
        else .ok (m.name :: rest.1, m.name :: rest.2.1, rest.2.2)

/-- Outer loop of `install_modules` over the layers, with the same
`early_exit` handling as for tools; a raised exception propagates. -/
def moduleLayersPass (mods : List MModule) (fail_early : Bool) :
    List (List String) → Except Unit (List String × List String × List String)
  | [] => .ok ([], [], [])
  | layer :: rest =>
    match moduleLayerPass (mods.filter fun m => decide (m.name ∈ layer)) with
    | .error e => .error e
    | .ok cur =>
      if fail_early && !cur.2.1.isEmpty then .ok cur
      else
        match moduleLayersPass mods fail_early rest with
        | .error e => .error e
        | .ok further =>
          .ok (cur.1 ++ further.1, cur.2.1 ++ further.2.1, cur.2.2 ++ further.2.2)

/-- The module rollback loop, identical in structure to `toolRollback`. -/
def moduleRollback (successful : List String) :
    List MModule → List String → Except (List String × String) (List String)
  | [], destroyed => .ok destroyed
  | m :: ms, destroyed =>
    if decide (m.name ∈ successful) then
      if m.destroyResult then moduleRollback successful ms (destroyed ++ [m.name])
      else .error (destroyed, m.name)
    else moduleRollback successful ms destroyed

/--
`Starter.install_modules` from `startout/starterfile.py`.  The outer
`.error ()` is an exception raised by some module's `initialize` escaping
the whole call (the source has no handler around `module.initialize()`).
-/
def install_modules (mods : List MModule) (module_dependencies : List (List String))
    (teardown_on_failure fail_early : Bool) : Except Unit InstallOutcome :=
  if mods.isEmpty then .ok .nothingToDo
  else
    match moduleLayersPass mods fail_early module_dependencies with
    | .error e => .error e
    | .ok fs =>
      if fs.2.1.isEmpty then .ok .success
      else .ok (.failure fs.2.1
        (if teardown_on_failure then some (moduleRollback fs.2.2 mods []) else none))

/-- Membership facts for one layer pass: successful tools had a failing
check and a succeeding initialize, failed tools failing check and
initialize; failed and successful tools were attempted, and every attempted
tool is a tool of the layer whose check failed. -/
theorem toolLayerPass_facts :
    ∀ (ts : List MTool),
      (∀ n ∈ (toolLayerPass ts).2.2,
        ∃ t ∈ ts, t.name = n ∧ t.checkResult = false ∧ t.initResult = true) ∧
      (∀ n ∈ (toolLayerPass ts).2.1,
        ∃ t ∈ ts, t.name = n ∧ t.checkResult = false ∧ t.initResult = false) ∧
      (∀ n, (n ∈ (toolLayerPass ts).2.1 ∨ n ∈ (toolLayerPass ts).2.2) →
        n ∈ (toolLayerPass ts).1) ∧
      (∀ n ∈ (toolLayerPass ts).1, ∃ t ∈ ts, t.name = n ∧ t.checkResult = false) := by
  intro ts
  induction ts with
  | nil =>
    exact ⟨by simp [toolLayerPass], by simp [toolLayerPass], by simp [toolLayerPass],
      by simp [toolLayerPass]⟩
  | cons t ts ih =>
    obtain ⟨ihs, ihf, iha, ihat⟩ := ih
    by_cases hc : t.checkResult
    · have heq : toolLayerPass (t :: ts) = toolLayerPass ts := by
        simp [toolLayerPass, hc]
      rw [heq]
      refine ⟨?_, ?_, iha, ?_⟩
      · intro n hn
        obtain ⟨t', ht', h⟩ := ihs n hn
        exact ⟨t', List.mem_cons_of_mem _ ht', h⟩
      · intro n hn
        obtain ⟨t', ht', h⟩ := ihf n hn
        exact ⟨t', List.mem_cons_of_mem _ ht', h⟩
      · intro n hn
        obtain ⟨t', ht', h⟩ := ihat n hn
        exact ⟨t', List.mem_cons_of_mem _ ht', h⟩
    · by_cases hi : t.initResult
      · have heq : toolLayerPass (t :: ts) =
            (t.name :: (toolLayerPass ts).1, (toolLayerPass ts).2.1,
              t.name :: (toolLayerPass ts).2.2) := by
          simp [toolLayerPass, hc, hi]
        rw [heq]
        refine ⟨?_, ?_, ?_, ?_⟩
        · intro n hn
          rcases List.mem_cons.mp hn with rfl | hn
          · exact ⟨t, List.mem_cons_self t ts, rfl, by simpa using hc, hi⟩
          · obtain ⟨t', ht', h⟩ := ihs n hn
            exact ⟨t', List.mem_cons_of_mem _ ht', h⟩
        · intro n hn
          obtain ⟨t', ht', h⟩ := ihf n hn
          exact ⟨t', List.mem_cons_of_mem _ ht', h⟩
        · intro n hn
          rcases hn with hn | hn
          · exact List.mem_cons_of_mem _ (iha n (Or.inl hn))
          · rcases List.mem_cons.mp hn with rfl | hn
            · exact List.mem_cons_self _ _
            · exact List.mem_cons_of_mem _ (iha n (Or.inr hn))
        · intro n hn
          rcases List.mem_cons.mp hn with rfl | hn
          · exact ⟨t, List.mem_cons_self t ts, rfl, by simpa using hc⟩
          · obtain ⟨t', ht', h⟩ := ihat n hn
            exact ⟨t', List.mem_cons_of_mem _ ht', h⟩
      · have heq : toolLayerPass (t :: ts) =
            (t.name :: (toolLayerPass ts).1, t.name :: (toolLayerPass ts).2.1,
              (toolLayerPass ts).2.2) := by
          simp [toolLayerPass, hc, hi]
        rw [heq]
        refine ⟨?_, ?_, ?_, ?_⟩
        · intro n hn
          obtain ⟨t', ht', h⟩ := ihs n hn
          exact ⟨t', List.mem_cons_of_mem _ ht', h⟩
        · intro n hn
          rcases List.mem_cons.mp hn with rfl | hn
          · exact ⟨t, List.mem_cons_self t ts, rfl, by simpa using hc, by simpa using hi⟩
          · obtain ⟨t', ht', h⟩ := ihf n hn
            exact ⟨t', List.mem_cons_of_mem _ ht', h⟩
        · intro n hn
          rcases hn with hn | hn
          · rcases List.mem_cons.mp hn with rfl | hn
            · exact List.mem_cons_self _ _
            · exact List.mem_cons_of_mem _ (iha n (Or.inl hn))
          · exact List.mem_cons_of_mem _ (iha n (Or.inr hn))
        · intro n hn
          rcases List.mem_cons.mp hn with rfl | hn
          · exact ⟨t, List.mem_cons_self t ts, rfl, by simpa using hc⟩
          · obtain ⟨t', ht', h⟩ := ihat n hn
            exact ⟨t', List.mem_cons_of_mem _ ht', h⟩

/-- Membership facts for the full layer walk of `install_tools`. -/
theorem toolLayersPass_facts (tools : List MTool) (fe : Bool) :
    ∀ (layers : List (List String)),
      (∀ n ∈ (toolLayersPass tools fe layers).2.2,
        ∃ t ∈ tools, t.name = n ∧ t.checkResult = false ∧ t.initResult = true) ∧
      (∀ n ∈ (toolLayersPass tools fe layers).2.1,
        ∃ t ∈ tools, t.name = n ∧ t.checkResult = false ∧ t.initResult = false) ∧
      (∀ n, (n ∈ (toolLayersPass tools fe layers).2.1 ∨
          n ∈ (toolLayersPass tools fe layers).2.2) →
        n ∈ (toolLayersPass tools fe layers).1) ∧
      (∀ n ∈ (toolLayersPass tools fe layers).1,
        n ∈ layers.flatten ∧ ∃ t ∈ tools, t.name = n ∧ t.checkResult = false) := by
  intro layers
  induction layers with
  | nil =>
    exact ⟨by simp [toolLayersPass], by simp [toolLayersPass], by simp [toolLayersPass],
      by simp [toolLayersPass]⟩
  | cons layer rest ih =>
    obtain ⟨ihs, ihf, iha, ihat⟩ := ih
    obtain ⟨curs, curf, cura, curat⟩ :=
      toolLayerPass_facts (tools.filter fun t => decide (t.name ∈ layer))
    have hcurs : ∀ n ∈ (toolLayerPass (tools.filter fun t => decide (t.name ∈ layer))).2.2,
        ∃ t ∈ tools, t.name = n ∧ t.checkResult = false ∧ t.initResult = true := by
      intro n hn
      obtain ⟨t, ht, h⟩ := curs n hn
      exact ⟨t, (List.mem_filter.mp ht).1, h⟩
    have hcurf : ∀ n ∈ (toolLayerPass (tools.filter fun t => decide (t.name ∈ layer))).2.1,
        ∃ t ∈ tools, t.name = n ∧ t.checkResult = false ∧ t.initResult = false := by
      intro n hn
      obtain ⟨t, ht, h⟩ := curf n hn
      exact ⟨t, (List.mem_filter.mp ht).1, h⟩
    have hcurat : ∀ n ∈ (toolLayerPass (tools.filter fun t => decide (t.name ∈ layer))).1,
        n ∈ (layer :: rest).flatten ∧ ∃ t ∈ tools, t.name = n ∧ t.checkResult = false := by
      intro n hn
      obtain ⟨t, ht, hname, hcheck⟩ := curat n hn
      obtain ⟨htools, hlayer⟩ := List.mem_filter.mp ht
      refine ⟨?_, t, htools, hname, hcheck⟩
      rw [List.flatten_cons]
      exact List.mem_append_left _ (by rw [← hname]; simpa using hlayer)
    by_cases hcond : (fe && !(toolLayerPass (tools.filter fun t =>
        decide (t.name ∈ layer))).2.1.isEmpty) = true
    · have heq : toolLayersPass tools fe (layer :: rest) =
          toolLayerPass (tools.filter fun t => decide (t.name ∈ layer)) := by
        simp only [toolLayersPass, hcond, if_true]
      rw [heq]
      exact ⟨hcurs, hcurf, cura, hcurat⟩
    · have heq : toolLayersPass tools fe (layer :: rest) =
          ((toolLayerPass (tools.filter fun t => decide (t.name ∈ layer))).1 ++
              (toolLayersPass tools fe rest).1,
            (toolLayerPass (tools.filter fun t => decide (t.name ∈ layer))).2.1 ++
              (toolLayersPass tools fe rest).2.1,
            (toolLayerPass (tools.filter fun t => decide (t.name ∈ layer))).2.2 ++
              (toolLayersPass tools fe rest).2.2) := by
        simp only [toolLayersPass, hcond, if_false, Bool.false_eq_true]
      rw [heq]
      refine ⟨?_, ?_, ?_, ?_⟩
      · intro n hn
        rcases List.mem_append.mp hn with hn | hn
        · exact hcurs n hn
        · exact ihs n hn
      · intro n hn
        rcases List.mem_append.mp hn with hn | hn
        · exact hcurf n hn
        · exact ihf n hn
      · intro n hn
        rcases hn with hn | hn
        · rcases List.mem_append.mp hn with hn | hn
          · exact List.mem_append_left _ (cura n (Or.inl hn))
          · exact List.mem_append_right _ (iha n (Or.inl hn))
        · rcases List.mem_append.mp hn with hn | hn
          · exact List.mem_append_left _ (cura n (Or.inr hn))
          · exact List.mem_append_right _ (iha n (Or.inr hn))
      · intro n hn
        rcases List.mem_append.mp hn with hn | hn
        · exact hcurat n hn
        · obtain ⟨hflat, hex⟩ := ihat n hn
          refine ⟨?_, hex⟩
          rw [List.flatten_cons]
          exact List.mem_append_right _ hflat

/-- Every name destroy is called on during a rollback was in the
accumulator or in the successful list. -/
theorem toolRollback_sub (s : List String) :
    ∀ (ts : List MTool) (acc : List String) (n : String),
      n ∈ destroyCalls (toolRollback s ts acc) → n ∈ acc ∨ n ∈ s := by
  intro ts
  induction ts with
  | nil =>
    intro acc n hn
    simp [toolRollback, destroyCalls] at hn
    exact Or.inl hn
  | cons t ts ih =>
    intro acc n hn
    by_cases hs : t.name ∈ s
    · by_cases hd : t.destroyResult
      · rw [show toolRollback s (t :: ts) acc = toolRollback s ts (acc ++ [t.name]) from by
          simp [toolRollback, hs, hd]] at hn
        rcases ih (acc ++ [t.name]) n hn with hn | hn
        · rcases List.mem_append.mp hn with hn | hn
          · exact Or.inl hn
          · rw [List.mem_singleton] at hn
            exact Or.inr (hn ▸ hs)
        · exact Or.inr hn
      · rw [show toolRollback s (t :: ts) acc = .error (acc, t.name) from by
          simp [toolRollback, hs, hd]] at hn
        rw [destroyCalls] at hn
        rcases List.mem_append.mp hn with hn | hn
        · exact Or.inl hn
        · rw [List.mem_singleton] at hn
          exact Or.inr (hn ▸ hs)
    · rw [show toolRollback s (t :: ts) acc = toolRollback s ts acc from by
        simp [toolRollback, hs]] at hn
      exact ih acc n hn

/-- When every successful tool's destroy succeeds, the rollback completes
and destroys (in `tools` order) precisely the tools whose name is in the
successful list. -/
theorem toolRollback_complete (s : List String) :
    ∀ (ts : List MTool) (acc : List String),
      (∀ t ∈ ts, t.name ∈ s → t.destroyResult = true) →
      toolRollback s ts acc
        = .ok (acc ++ (ts.filter fun t => decide (t.name ∈ s)).map (·.name)) := by
  intro ts
  induction ts with
  | nil =>
    intro acc _
    simp [toolRollback]
  | cons t ts ih =>
    intro acc hdes
    by_cases hs : t.name ∈ s
    · have hd : t.destroyResult = true := hdes t (List.mem_cons_self t ts) hs
      rw [show toolRollback s (t :: ts) acc = toolRollback s ts (acc ++ [t.name]) from by
        simp [toolRollback, hs, hd]]
      rw [ih (acc ++ [t.name]) fun t' ht' => hdes t' (List.mem_cons_of_mem _ ht')]
      simp [hs]
    · rw [show toolRollback s (t :: ts) acc = toolRollback s ts acc from by
        simp [toolRollback, hs]]
      rw [ih acc fun t' ht' => hdes t' (List.mem_cons_of_mem _ ht')]
      simp [hs]

/-- An empty tool list walks to empty results. -/
theorem toolLayersPass_nil (fe : Bool) :
    ∀ (layers : List (List String)), toolLayersPass [] fe layers = ([], [], []) := by
  intro layers
  induction layers with
  | nil => rfl
  | cons layer rest ih => simp [toolLayersPass, toolLayerPass, ih]

/-- When no module of a layer raises, the layer pass returns lists with the
same membership structure as for tools (without check-skips: every module of
the layer is attempted). -/
theorem moduleLayerPass_ok :
    ∀ (ms : List MModule), (∀ m ∈ ms, m.initBehavior ≠ .error ()) →
      ∃ trip, moduleLayerPass ms = .ok trip ∧
        (∀ n ∈ trip.2.2, ∃ m ∈ ms, m.name = n ∧ m.initBehavior = .ok true) ∧
        (∀ n ∈ trip.2.1, ∃ m ∈ ms, m.name = n ∧ m.initBehavior = .ok false) ∧
        (∀ n, (n ∈ trip.2.1 ∨ n ∈ trip.2.2) → n ∈ trip.1) ∧
        (∀ n ∈ trip.1, ∃ m ∈ ms, m.name = n) := by
  intro ms
  induction ms with
  | nil => exact fun _ => ⟨([], [], []), rfl, by simp, by simp, by simp, by simp⟩
  | cons m ms ih =>
    intro h
    obtain ⟨trip, htrip, ihs, ihf, iha, ihat⟩ :=
      ih fun m' hm' => h m' (List.mem_cons_of_mem _ hm')
    cases hb : m.initBehavior with
    | error e =>
      cases e
      exact absurd hb (h m (List.mem_cons_self m ms))
    | ok b =>
      cases b
      · refine ⟨(m.name :: trip.1, m.name :: trip.2.1, trip.2.2),
          by simp [moduleLayerPass, hb, htrip], ?_, ?_, ?_, ?_⟩
        · intro n hn
          obtain ⟨m', hm', hp⟩ := ihs n hn
          exact ⟨m', List.mem_cons_of_mem _ hm', hp⟩
        · intro n hn
          rcases List.mem_cons.mp hn with rfl | hn
          · exact ⟨m, List.mem_cons_self m ms, rfl, hb⟩
          · obtain ⟨m', hm', hp⟩ := ihf n hn
            exact ⟨m', List.mem_cons_of_mem _ hm', hp⟩
        · intro n hn
          rcases hn with hn | hn
          · rcases List.mem_cons.mp hn with rfl | hn
            · exact List.mem_cons_self _ _
            · exact List.mem_cons_of_mem _ (iha n (Or.inl hn))
          · exact List.mem_cons_of_mem _ (iha n (Or.inr hn))
        · intro n hn
          rcases List.mem_cons.mp hn with rfl | hn
          · exact ⟨m, List.mem_cons_self m ms, rfl⟩
          · obtain ⟨m', hm', hp⟩ := ihat n hn
            exact ⟨m', List.mem_cons_of_mem _ hm', hp⟩
      · refine ⟨(m.name :: trip.1, trip.2.1, m.name :: trip.2.2),
          by simp [moduleLayerPass, hb, htrip], ?_, ?_, ?_, ?_⟩
        · intro n hn
          rcases List.mem_cons.mp hn with rfl | hn
          · exact ⟨m, List.mem_cons_self m ms, rfl, hb⟩
          · obtain ⟨m', hm', hp⟩ := ihs n hn
            exact ⟨m', List.mem_cons_of_mem _ hm', hp⟩
        · intro n hn
          obtain ⟨m', hm', hp⟩ := ihf n hn
          exact ⟨m', List.mem_cons_of_mem _ hm', hp⟩
        · intro n hn
          rcases hn with hn | hn
          · exact List.mem_cons_of_mem _ (iha n (Or.inl hn))
          · rcases List.mem_cons.mp hn with rfl | hn
            · exact List.mem_cons_self _ _
            · exact List.mem_cons_of_mem _ (iha n (Or.inr hn))
        · intro n hn
          rcases List.mem_cons.mp hn with rfl | hn
          · exact ⟨m, List.mem_cons_self m ms, rfl⟩
          · obtain ⟨m', hm', hp⟩ := ihat n hn
            exact ⟨m', List.mem_cons_of_mem _ hm', hp⟩

/-- When no module raises, the full walk returns lists with the expected
membership structure; every attempted module is named in some layer. -/
theorem moduleLayersPass_ok (mods : List MModule)
    (hnoraise : ∀ m ∈ mods, m.initBehavior ≠ .error ()) (fe : Bool) :
    ∀ (layers : List (List String)),
      ∃ trip, moduleLayersPass mods fe layers = .ok trip ∧
        (∀ n ∈ trip.2.2, ∃ m ∈ mods, m.name = n ∧ m.initBehavior = .ok true) ∧
        (∀ n ∈ trip.2.1, ∃ m ∈ mods, m.name = n ∧ m.initBehavior = .ok false) ∧
        (∀ n, (n ∈ trip.2.1 ∨ n ∈ trip.2.2) → n ∈ trip.1) ∧
        (∀ n ∈ trip.1, n ∈ layers.flatten ∧ ∃ m ∈ mods, m.name = n) := by
  intro layers
  induction layers with
  | nil =>
    exact ⟨([], [], []), rfl, by simp, by simp, by simp, by simp⟩
  | cons layer rest ih =>
    obtain ⟨further, hfurther, ihs, ihf, iha, ihat⟩ := ih
    obtain ⟨cur, hcur, curs, curf, cura, curat⟩ :=
      moduleLayerPass_ok (mods.filter fun m => decide (m.name ∈ layer))
        fun m hm => hnoraise m (List.mem_filter.mp hm).1
    have hcurs : ∀ n ∈ cur.2.2, ∃ m ∈ mods, m.name = n ∧ m.initBehavior = .ok true := by
      intro n hn
      obtain ⟨m, hm, hp⟩ := curs n hn
      exact ⟨m, (List.mem_filter.mp hm).1, hp⟩
    have hcurf : ∀ n ∈ cur.2.1, ∃ m ∈ mods, m.name = n ∧ m.initBehavior = .ok false := by
      intro n hn
      obtain ⟨m, hm, hp⟩ := curf n hn
      exact ⟨m, (List.mem_filter.mp hm).1, hp⟩
    have hcurat : ∀ n ∈ cur.1, n ∈ (layer :: rest).flatten ∧ ∃ m ∈ mods, m.name = n := by
      intro n hn
      obtain ⟨m, hm, hname⟩ := curat n hn
      obtain ⟨hmods, hlayer⟩ := List.mem_filter.mp hm
      refine ⟨?_, m, hmods, hname⟩
      rw [List.flatten_cons]
      exact List.mem_append_left _ (by rw [← hname]; simpa using hlayer)
    by_cases hcond : (fe && !cur.2.1.isEmpty) = true
    · refine ⟨cur, ?_, hcurs, hcurf, cura, hcurat⟩
      simp [moduleLayersPass, hcur, hcond]
    · refine ⟨(cur.1 ++ further.1, cur.2.1 ++ further.2.1, cur.2.2 ++ further.2.2),
        ?_, ?_, ?_, ?_, ?_⟩
      · simp [moduleLayersPass, hcur, hcond, hfurther]
      · intro n hn
        rcases List.mem_append.mp hn with hn | hn
        · exact hcurs n hn
        · exact ihs n hn
      · intro n hn
        rcases List.mem_append.mp hn with hn | hn
        · exact hcurf n hn
        · exact ihf n hn
      · intro n hn
        rcases hn with hn | hn
        · rcases List.mem_append.mp hn with hn | hn
          · exact List.mem_append_left _ (cura n (Or.inl hn))
          · exact List.mem_append_right _ (iha n (Or.inl hn))
        · rcases List.mem_append.mp hn with hn | hn
          · exact List.mem_append_left _ (cura n (Or.inr hn))
          · exact List.mem_append_right _ (iha n (Or.inr hn))
      · intro n hn
        rcases List.mem_append.mp hn with hn | hn
        · exact hcurat n hn
        · obtain ⟨hflat, hex⟩ := ihat n hn
          refine ⟨?_, hex⟩
          rw [List.flatten_cons]
          exact List.mem_append_right _ hflat

/-- Module analogue of `toolRollback_sub`. -/
theorem moduleRollback_sub (s : List String) :
    ∀ (ms : List MModule) (acc : List String) (n : String),
      n ∈ destroyCalls (moduleRollback s ms acc) → n ∈ acc ∨ n ∈ s := by
  intro ms
  induction ms with
  | nil =>
    intro acc n hn
    simp [moduleRollback, destroyCalls] at hn
    exact Or.inl hn
  | cons m ms ih =>
    intro acc n hn
    by_cases hs : m.name ∈ s
    · by_cases hd : m.destroyResult
      · rw [show moduleRollback s (m :: ms) acc = moduleRollback s ms (acc ++ [m.name]) from by
          simp [moduleRollback, hs, hd]] at hn
        rcases ih (acc ++ [m.name]) n hn with hn | hn
        · rcases List.mem_append.mp hn with hn | hn
          · exact Or.inl hn
          · rw [List.mem_singleton] at hn
            exact Or.inr (hn ▸ hs)
        · exact Or.inr hn
      · rw [show moduleRollback s (m :: ms) acc = .error (acc, m.name) from by
          simp [moduleRollback, hs, hd]] at hn
        rw [destroyCalls] at hn
        rcases List.mem_append.mp hn with hn | hn
        · exact Or.inl hn
        · rw [List.mem_singleton] at hn
          exact Or.inr (hn ▸ hs)
    · rw [show moduleRollback s (m :: ms) acc = moduleRollback s ms acc from by
        simp [moduleRollback, hs]] at hn
      exact ih acc n hn

/-- Module analogue of `toolRollback_complete`. -/
theorem moduleRollback_complete (s : List String) :
    ∀ (ms : List MModule) (acc : List String),
      (∀ m ∈ ms, m.name ∈ s → m.destroyResult = true) →
      moduleRollback s ms acc
        = .ok (acc ++ (ms.filter fun m => decide (m.name ∈ s)).map (·.name)) := by
  intro ms
  induction ms with
  | nil =>
    intro acc _
    simp [moduleRollback]
  | cons m ms ih =>
    intro acc hdes
    by_cases hs : m.name ∈ s
    · have hd : m.destroyResult = true := hdes m (List.mem_cons_self m ms) hs
      rw [show moduleRollback s (m :: ms) acc = moduleRollback s ms (acc ++ [m.name]) from by
        simp [moduleRollback, hs, hd]]
      rw [ih (acc ++ [m.name]) fun m' hm' => hdes m' (List.mem_cons_of_mem _ hm')]
      simp [hs]
    · rw [show moduleRollback s (m :: ms) acc = moduleRollback s ms acc from by
        simp [moduleRollback, hs]]
      rw [ih acc fun m' hm' => hdes m' (List.mem_cons_of_mem _ hm')]
      simp [hs]

/-- If some module of the list raises, the layer pass raises. -/
theorem moduleLayerPass_raises :
    ∀ (ms : List MModule), (∃ m ∈ ms, m.initBehavior = .error ()) →
      moduleLayerPass ms = .error () := by
  intro ms
  induction ms with
  | nil =>
    rintro ⟨m, hm, -⟩
    exact absurd hm (List.not_mem_nil m)
  | cons m ms ih =>
    rintro ⟨m', hm', hraise⟩
    cases hb : m.initBehavior with
    | error e =>
      cases e
      simp [moduleLayerPass, hb]
    | ok b =>
      have hm'tail : m' ∈ ms := by
        rcases List.mem_cons.mp hm' with rfl | h
        · rw [hb] at hraise
          exact absurd hraise (by simp)
        · exact h
      have htail : moduleLayerPass ms = .error () := ih ⟨m', hm'tail, hraise⟩
      simp [moduleLayerPass, hb, htail]

/-- A module that raises and is named in the first layer makes the whole
walk raise. -/
theorem moduleLayersPass_raises (mods : List MModule) (fe : Bool)
    (layer : List String) (rest : List (List String)) (m : MModule)
    (hm : m ∈ mods) (hname : m.name ∈ layer) (hraise : m.initBehavior = .error ()) :
    moduleLayersPass mods fe (layer :: rest) = .error () := by
  have hcur : moduleLayerPass (mods.filter fun m' => decide (m'.name ∈ layer)) = .error () :=
    moduleLayerPass_raises _ ⟨m, List.mem_filter.mpr ⟨hm, by simpa using hname⟩, hraise⟩
  simp [moduleLayersPass, hcur]

/-- An empty module list walks to empty results. -/
theorem moduleLayersPass_nil (fe : Bool) :
    ∀ (layers : List (List String)), moduleLayersPass [] fe layers = .ok ([], [], []) := by
  intro layers
  induction layers with
  | nil => rfl
  | cons layer rest ih => simp [moduleLayersPass, moduleLayerPass, ih]

/--
**C2, amended**  In any `install_tools` / `install_modules` run with
rollback enabled (`teardown_on_failure`) in which at least one unit fails to
install (unit names unique per the data model; no module raises), rollback
attempts destroy only on units whose `initialize` returned success during
the run: units skipped because `check()` succeeded are never destroyed, and
units never attempted are never destroyed; when moreover every destroy
succeeds, destroy is called on exactly the successfully installed units.
(Amendment to the claim's unconditional "exactly": when a destroy fails, the
run aborts fatally and the successfully installed units after it are not
destroyed — see the counterexample.)
-/
theorem claim_C2
    (tools : List MTool) (tlayers : List (List String)) (tfe : Bool)
    (mods : List MModule) (mlayers : List (List String)) (mfe : Bool)
    (htnodup : (tools.map MTool.name).Nodup)
    (hmnodup : (mods.map MModule.name).Nodup)
    (hnoraise : ∀ m ∈ mods, m.initBehavior ≠ .error ()) :
    ((toolLayersPass tools tfe tlayers).2.1 ≠ [] →
      install_tools tools tlayers true tfe
        = .failure (toolLayersPass tools tfe tlayers).2.1
            (some (toolRollback (toolLayersPass tools tfe tlayers).2.2 tools [])) ∧
      (∀ n ∈ destroyCalls (toolRollback (toolLayersPass tools tfe tlayers).2.2 tools []),
        n ∈ (toolLayersPass tools tfe tlayers).2.2) ∧
      ((∀ t ∈ tools, t.name ∈ (toolLayersPass tools tfe tlayers).2.2 →
          t.destroyResult = true) →
        ∀ n, n ∈ destroyCalls (toolRollback (toolLayersPass tools tfe tlayers).2.2 tools [])
          ↔ n ∈ (toolLayersPass tools tfe tlayers).2.2) ∧
      (∀ t ∈ tools, t.checkResult = true →
        t.name ∉ destroyCalls (toolRollback (toolLayersPass tools tfe tlayers).2.2 tools [])) ∧
      (∀ t ∈ tools, t.name ∉ (toolLayersPass tools tfe tlayers).1 →
        t.name ∉ destroyCalls (toolRollback (toolLayersPass tools tfe tlayers).2.2 tools []))) ∧
    (∃ mtrip, moduleLayersPass mods mfe mlayers = .ok mtrip ∧
      (mtrip.2.1 ≠ [] →
        install_modules mods mlayers true mfe
          = .ok (.failure mtrip.2.1 (some (moduleRollback mtrip.2.2 mods []))) ∧
        (∀ n ∈ destroyCalls (moduleRollback mtrip.2.2 mods []), n ∈ mtrip.2.2) ∧
        ((∀ m ∈ mods, m.name ∈ mtrip.2.2 → m.destroyResult = true) →
          ∀ n, n ∈ destroyCalls (moduleRollback mtrip.2.2 mods []) ↔ n ∈ mtrip.2.2) ∧
        (∀ m ∈ mods, m.name ∉ mtrip.1 →
          m.name ∉ destroyCalls (moduleRollback mtrip.2.2 mods [])))) := by
  obtain ⟨ts, tf, ta, tat⟩ := toolLayersPass_facts tools tfe tlayers
  constructor
  · intro htfail
    have htne : tools ≠ [] := by
      intro h
      subst h
      rw [toolLayersPass_nil] at htfail
      exact htfail rfl
    refine ⟨?_, ?_, ?_, ?_, ?_⟩
    · have h1 : tools.isEmpty = false := by simp [List.isEmpty_iff, htne]
      have h2 : (toolLayersPass tools tfe tlayers).2.1.isEmpty = false := by
        simp [List.isEmpty_iff, htfail]
      simp [install_tools, h1, h2]
    · intro n hn
      rcases toolRollback_sub _ tools [] n hn with hn | hn
      · exact absurd hn (List.not_mem_nil n)
      · exact hn
    · intro hdes n
      constructor
      · intro hn
        rcases toolRollback_sub _ tools [] n hn with hn | hn
        · exact absurd hn (List.not_mem_nil n)
        · exact hn
      · intro hn
        obtain ⟨t, ht, htname, -, -⟩ := ts n hn
        rw [toolRollback_complete _ tools [] hdes, destroyCalls]
        refine List.mem_append_right _ (List.mem_map.mpr ⟨t, ?_, htname⟩)
        exact List.mem_filter.mpr ⟨ht, by simp [htname, hn]⟩
    · intro t ht hcheck hmem
      have hns : t.name ∈ (toolLayersPass tools tfe tlayers).2.2 := by
        rcases toolRollback_sub _ tools [] t.name hmem with h | h
        · exact absurd h (List.not_mem_nil _)
        · exact h
      obtain ⟨t', ht', ht'name, ht'check, -⟩ := ts t.name hns
      have htt : t' = t := List.inj_on_of_nodup_map htnodup ht' ht ht'name
      rw [htt] at ht'check
      rw [hcheck] at ht'check
      exact Bool.noConfusion ht'check
    · intro t ht hnot hmem
      have hns : t.name ∈ (toolLayersPass tools tfe tlayers).2.2 := by
        rcases toolRollback_sub _ tools [] t.name hmem with h | h
        · exact absurd h (List.not_mem_nil _)
        · exact h
      exact hnot (ta t.name (Or.inr hns))
  · obtain ⟨mtrip, hmtrip, ms, mf, ma, mat⟩ := moduleLayersPass_ok mods hnoraise mfe mlayers
    refine ⟨mtrip, hmtrip, ?_⟩
    intro hmfail
    have hmne : mods ≠ [] := by
      intro h
      subst h
      rw [moduleLayersPass_nil] at hmtrip
      have : mtrip = ([], [], []) := by
        injection hmtrip with h'
        exact h'.symm
      rw [this] at hmfail
      exact hmfail rfl
    refine ⟨?_, ?_, ?_, ?_⟩
    · have h1 : mods.isEmpty = false := by simp [List.isEmpty_iff, hmne]
      have h2 : mtrip.2.1.isEmpty = false := by simp [List.isEmpty_iff, hmfail]
      simp [install_modules, h1, hmtrip, h2]
    · intro n hn
      rcases moduleRollback_sub _ mods [] n hn with hn | hn
      · exact absurd hn (List.not_mem_nil n)
      · exact hn
    · intro hdes n
      constructor
      · intro hn
        rcases moduleRollback_sub _ mods [] n hn with hn | hn
        · exact absurd hn (List.not_mem_nil n)
        · exact hn
      · intro hn
        obtain ⟨m, hm, hmname, -⟩ := ms n hn
        rw [moduleRollback_complete _ mods [] hdes, destroyCalls]
        refine List.mem_append_right _ (List.mem_map.mpr ⟨m, ?_, hmname⟩)
        exact List.mem_filter.mpr ⟨hm, by simp [hmname, hn]⟩
    · intro m hm hnot hmem
      have hns : m.name ∈ mtrip.2.2 := by
        rcases moduleRollback_sub _ mods [] m.name hmem with h | h
        · exact absurd h (List.not_mem_nil _)
        · exact h
      exact hnot (ma m.name (Or.inr hns))

/--
**C2, counterexample**  The claim's unconditional "rollback calls destroy on
exactly those units whose initialize returned success" fails when a destroy
fails mid-rollback: here `A` and `B` both installed successfully and `C`
failed; rolling back, `A`'s destroy fails, the run aborts fatally
(`sys.exit(1)`), and destroy is never called on `B` although it is
newly installed.
-/
theorem claim_C2_counterexample :
    (toolLayersPass [⟨"A", false, true, false⟩, ⟨"B", false, true, true⟩,
        ⟨"C", false, false, true⟩] true [["A", "B", "C"]]).2.2 = ["A", "B"] ∧
    install_tools [⟨"A", false, true, false⟩, ⟨"B", false, true, true⟩,
        ⟨"C", false, false, true⟩] [["A", "B", "C"]] true true
      = .failure ["C"] (some (.error ([], "A"))) ∧
    "B" ∉ destroyCalls (.error (([], "A") : List String × String)) := by
  refine ⟨by decide, by decide, by decide⟩

/-- Closed instance of `claim_C2` (amended), at one skipped, one successful
and one failed tool and one successful and one failed module: the skipped
tool `A` is not destroyed during rollback, and the failed module `N` is not
destroyed either (only the newly installed `M` is). -/
theorem claim_C2_witness :
    (([⟨"A", true, true, true⟩, ⟨"B", false, true, true⟩, ⟨"C", false, false, true⟩]
          : List MTool).map MTool.name).Nodup ∧
    (([⟨"M", .ok true, true⟩, ⟨"N", .ok false, true⟩] : List MModule).map
        MModule.name).Nodup ∧
    (∀ m ∈ ([⟨"M", .ok true, true⟩, ⟨"N", .ok false, true⟩] : List MModule),
      m.initBehavior ≠ .error ()) ∧
    (toolLayersPass [⟨"A", true, true, true⟩, ⟨"B", false, true, true⟩,
        ⟨"C", false, false, true⟩] true [["A", "B", "C"]]).2.1 ≠ [] ∧
    (∀ t ∈ ([⟨"A", true, true, true⟩, ⟨"B", false, true, true⟩,
        ⟨"C", false, false, true⟩] : List MTool), t.checkResult = true →
      t.name ∉ destroyCalls (toolRollback (toolLayersPass [⟨"A", true, true, true⟩,
            ⟨"B", false, true, true⟩, ⟨"C", false, false, true⟩] true
            [["A", "B", "C"]]).2.2
          [⟨"A", true, true, true⟩, ⟨"B", false, true, true⟩,
            ⟨"C", false, false, true⟩] [])) :=
  ⟨by decide, by decide, by decide, by decide,
    ((claim_C2 [⟨"A", true, true, true⟩, ⟨"B", false, true, true⟩,
        ⟨"C", false, false, true⟩] [["A", "B", "C"]] true
      [⟨"M", .ok true, true⟩, ⟨"N", .ok false, true⟩] [["M", "N"]] true
      (by decide) (by decide) (by decide)).1 (by decide)).2.2.2.1⟩

/--
**C3, amended**  The embedded `Tool` record (`MTool`, mirroring
`tool.py`/`starterfile.py`, which has only name, dependencies and scripts)
carries no `mode` or `alt` attribute, and `install_tools` performs no
alternate-tool substitution: every tool it ever attempts is named in the
input layers and in the tool list — the layer structure is a pure input that
is never extended — and a tool whose install fails is only recorded in the
failed list (failed and successful tools are all among the attempted ones).
-/
theorem claim_C3 (tools : List MTool) (layers : List (List String)) (fe : Bool) :
    (toolLayersPass tools fe layers).1 ⊆ layers.flatten ∧
    (toolLayersPass tools fe layers).1 ⊆ tools.map MTool.name ∧
    (toolLayersPass tools fe layers).2.1 ⊆ (toolLayersPass tools fe layers).1 ∧
    (toolLayersPass tools fe layers).2.2 ⊆ (toolLayersPass tools fe layers).1 := by
  obtain ⟨ts, tf, ta, tat⟩ := toolLayersPass_facts tools fe layers
  refine ⟨?_, ?_, ?_, ?_⟩
  · intro n hn
    exact (tat n hn).1
  · intro n hn
    obtain ⟨-, t, ht, htname, -⟩ := tat n hn
    exact htname ▸ List.mem_map_of_mem _ ht
  · intro n hn
    exact ta n (Or.inl hn)
  · intro n hn
    exact ta n (Or.inr hn)

/--
**C3, counterexample**  Tool `A` fails to install while tool `B` is present
but unscheduled (as an alt would be).  The claim says `B`'s mode becomes
INSTALL and `B` is scheduled into a layer at or after `A`'s; in the code
nothing of the sort exists: the run attempts only `A`, records `A` as
failed, and `B` is never attempted or installed.
-/
theorem claim_C3_counterexample :
    install_tools [⟨"A", false, false, true⟩, ⟨"B", false, true, true⟩] [["A"]] true true
      = .failure ["A"] (some (.ok [])) ∧
    toolLayersPass [⟨"A", false, false, true⟩, ⟨"B", false, true, true⟩] true [["A"]]
      = (["A"], ["A"], []) ∧
    "B" ∉ (toolLayersPass [⟨"A", false, false, true⟩, ⟨"B", false, true, true⟩]
      true [["A"]]).1 := by
  refine ⟨by decide, by decide, by decide⟩

/-- Result of `GitModule.initialize` (`module.py`): `raisedOSError` models
the `OSError` raised when `shutil.which("git")` is `None`, before any
command or script runs. -/
inductive GitInitResult where
  | raisedOSError
  | cloneFailed
  | initScriptFailed
  | succeeded
deriving DecidableEq, Repr

/--
`GitModule.initialize` over the observable host behaviour: whether the git
executable is available, whether `git clone` succeeds, and whether the
module's "init" role succeeds.  The second component lists the module script
roles that were run (the clone is a direct subprocess, not a module script).
-/
def gitModule_init (gitAvailable cloneOk initOk : Bool) :
    GitInitResult × List String :=
  if !gitAvailable then (.raisedOSError, [])
  else if !cloneOk then (.cloneFailed, [])
  else if initOk then (.succeeded, ["init"]) else (.initScriptFailed, ["init"])

/--
**C7, amended**  A `GitModule` on a host without the git executable fails
fast: `initialize` raises `OSError` before running any script.  The
exception is not caught by `install_modules` (the loop has no handler
around `module.initialize()`): when such a module is named in the first
layer, the whole `install_modules` call raises instead of recording a
per-unit failure.
-/
theorem claim_C7 (gitAvailable cloneOk initOk : Bool)
    (mods : List MModule) (layer : List String) (rest : List (List String))
    (m : MModule) (te fe : Bool)
    (hgit : gitAvailable = false)
    (hm : m ∈ mods) (hname : m.name ∈ layer) (hraise : m.initBehavior = .error ()) :
    gitModule_init gitAvailable cloneOk initOk = (.raisedOSError, []) ∧
    install_modules mods (layer :: rest) te fe = .error () := by
  constructor
  · subst hgit
    simp [gitModule_init]
  · have hne : mods ≠ [] := List.ne_nil_of_mem hm
    have hpass := moduleLayersPass_raises mods fe layer rest m hm hname hraise
    have h1 : mods.isEmpty = false := by simp [List.isEmpty_iff, hne]
    simp [install_modules, h1, hpass]

/--
**C7, counterexample**  The claim says the missing-git failure is recorded
per-unit by the install loop.  In the code the raised `OSError` propagates:
`install_modules` on a raising module raises itself (`.error ()`) and never
returns a per-unit failure report.
-/
theorem claim_C7_counterexample :
    gitModule_init false true true = (.raisedOSError, []) ∧
    install_modules [⟨"M", .error (), true⟩] [["M"]] true true = .error () ∧
    ¬ ∃ out, install_modules [⟨"M", .error (), true⟩] [["M"]] true true = .ok out := by
  refine ⟨by decide, by decide, ?_⟩
  rintro ⟨out, hout⟩
  rw [show install_modules [⟨"M", .error (), true⟩] [["M"]] true true = .error () from by
    decide] at hout
  exact Except.noConfusion hout

/-- Closed instance of `claim_C7` (amended). -/
theorem claim_C7_witness :
    (false = false) ∧
    (⟨"M", .error (), true⟩ : MModule) ∈ ([⟨"M", .error (), true⟩] : List MModule) ∧
    (⟨"M", .error (), true⟩ : MModule).name ∈ ["M"] ∧
    (⟨"M", .error (), true⟩ : MModule).initBehavior = .error () ∧
    (gitModule_init false true true = (.raisedOSError, []) ∧
      install_modules [⟨"M", .error (), true⟩] (["M"] :: []) true true = .error ()) :=
  ⟨rfl, by decide, by decide, by decide,
    claim_C7 false true true [⟨"M", .error (), true⟩] ["M"] [] ⟨"M", .error (), true⟩
      true true rfl (by decide) (by decide) (by decide)⟩

/-- The platform families distinguished by `platform.system()` in the
source: `windows` (`"windows"`/`"win32"`), `mac` (`"darwin"`), and the
fallback family `linux` (any other system). -/
inductive Platform where
  | windows
  | mac
  | linux
deriving DecidableEq, Repr

/--
A scripts table as validated by the schemas in `tool.py` / `module.py`:
role → script entries at top level, plus optional `windows` / `mac` /
`linux` sub-tables of role → script entries (the three platform keys are
modelled as fields; remaining keys are the `top` association list, first
match winning as for unique Python dict keys).
-/
structure ScriptsDict where
  top : List (String × String)
  windows : Option (List (String × String))
  mac : Option (List (String × String))
  linux : Option (List (String × String))
deriving DecidableEq, Repr

/--
`get_script` from `startout/util.py`: take the top-level entry for the role
if present, then let the sub-table matching the *current* platform override
it; if the result is still undefined the source raises `TypeError`,
modelled as `none`.
-/
def get_script (script : String) (sd : ScriptsDict) (plat : Platform) : Option String :=
  let base := sd.top.lookup script
  match plat with
  | .windows =>
    match sd.windows with
    | some t =>
      match t.lookup script with
      | some s => some s
      | none => base
    | none => base
  | .mac =>
    match sd.mac with
    | some t =>
      match t.lookup script with
      | some s => some s
      | none => base
    | none => base
  | .linux =>
    match sd.linux with
    | some t =>
      match t.lookup script with
      | some s => some s
      | none => base
    | none => base

/--
`Tool.get_script` from `tool.py`.  Unlike `util.get_script` it raises
(`ValueError`, the outer `none`) only in its `else` branch — the sub-table
for the current platform is absent and the top-level entry is missing too;
when the platform sub-table exists but neither it nor the top level defines
the role, a plain Python `None` (`some none`) is returned to the caller.
-/
def tool_get_script (script : String) (sd : ScriptsDict) (plat : Platform) :
    Option (Option String) :=
  let base := sd.top.lookup script
  match plat with
  | .windows =>
    match sd.windows with
    | some t =>
      match t.lookup script with
      | some s => some (some s)
      | none => some base
    | none =>
      match base with
      | none => none
      | some s => some (some s)
  | .mac =>
    match sd.mac with
    | some t =>
      match t.lookup script with
      | some s => some (some s)
      | none => some base
    | none =>
      match base with
      | none => none
      | some s => some (some s)
  | .linux =>
    match sd.linux with
    | some t =>
      match t.lookup script with
      | some s => some (some s)
      | none => some base
    | none =>
      match base with
      | none => none
      | some s => some (some s)

/--
`check_for_key` from `module.py`: the role must be present at top level, or
all three platform sub-tables must be present and each must define the
role; otherwise a `TypeError` is raised (modelled as `false`).
-/
def check_for_key (key : String) (sd : ScriptsDict) : Bool :=
  if (sd.top.lookup key).isSome then true
  else
    match sd.windows, sd.mac, sd.linux with
    | some w, some m, some l =>
      (w.lookup key).isSome && (m.lookup key).isSome && (l.lookup key).isSome
    | _, _, _ => false

/-- Whether `Module.__init__` (`module.py`) succeeds: its `get_script`
calls for "init" and "destroy" must not raise on the platform where the
constructor runs. -/
def module_construction_ok (sd : ScriptsDict) (plat : Platform) : Bool :=
  (get_script "init" sd plat).isSome && (get_script "destroy" sd plat).isSome

/-- Whether `Tool.__init__` (`tool.py`) succeeds: `Tool.get_script` for
"install" and "uninstall" must neither raise `ValueError` nor return `None`
(which `__init__` turns into a `TypeError`) on the platform where the
constructor runs. -/
def tool_construction_ok (sd : ScriptsDict) (plat : Platform) : Bool :=
  match tool_get_script "install" sd plat with
  | some (some _) =>
    match tool_get_script "uninstall" sd plat with
    | some (some _) => true
    | _ => false
  | _ => false

/-- The two resolvers agree on which script they produce. -/
theorem tool_get_script_agrees (key : String) (sd : ScriptsDict) (plat : Platform)
    (s : String) :
    tool_get_script key sd plat = some (some s) ↔ get_script key sd plat = some s := by
  obtain ⟨top, w, m, l⟩ := sd
  cases plat with
  | windows =>
    cases hw : w with
    | some t =>
      cases hl : t.lookup key with
      | some s' => simp [tool_get_script, get_script, hw, hl]
      | none => simp [tool_get_script, get_script, hw, hl]
    | none =>
      cases hb : top.lookup key with
      | some b => simp [tool_get_script, get_script, hw, hb]
      | none => simp [tool_get_script, get_script, hw, hb]
  | mac =>
    cases hm : m with
    | some t =>
      cases hl : t.lookup key with
      | some s' => simp [tool_get_script, get_script, hm, hl]
      | none => simp [tool_get_script, get_script, hm, hl]
    | none =>
      cases hb : top.lookup key with
      | some b => simp [tool_get_script, get_script, hm, hb]
      | none => simp [tool_get_script, get_script, hm, hb]
  | linux =>
    cases hl' : l with
    | some t =>
      cases hl : t.lookup key with
      | some s' => simp [tool_get_script, get_script, hl', hl]
      | none => simp [tool_get_script, get_script, hl', hl]
    | none =>
      cases hb : top.lookup key with
      | some b => simp [tool_get_script, get_script, hl', hb]
      | none => simp [tool_get_script, get_script, hl', hb]

/-- `check_for_key` passes exactly when the role resolves on every
platform. -/
theorem check_for_key_iff (key : String) (sd : ScriptsDict) :
    check_for_key key sd = true ↔ ∀ p, (get_script key sd p).isSome := by
  obtain ⟨top, w, m, l⟩ := sd
  constructor
  · intro hchk p
    by_cases ht : (top.lookup key).isSome
    · obtain ⟨b, hb⟩ := Option.isSome_iff_exists.mp ht
      cases p with
      | windows =>
        cases hw : w with
        | some t =>
          cases hl : t.lookup key with
          | some s => simp [get_script, hw, hl]
          | none => simp [get_script, hw, hl, hb]
        | none => simp [get_script, hw, hb]
      | mac =>
        cases hm : m with
        | some t =>
          cases hl : t.lookup key with
          | some s => simp [get_script, hm, hl]
          | none => simp [get_script, hm, hl, hb]
        | none => simp [get_script, hm, hb]
      | linux =>
        cases hl' : l with
        | some t =>
          cases hl : t.lookup key with
          | some s => simp [get_script, hl', hl]
          | none => simp [get_script, hl', hl, hb]
        | none => simp [get_script, hl', hb]
    · rw [check_for_key, if_neg ht] at hchk
      cases hw : w with
      | none => rw [hw] at hchk; simp at hchk
      | some tw =>
        cases hm : m with
        | none => rw [hw, hm] at hchk; simp at hchk
        | some tm =>
          cases hl : l with
          | none => rw [hw, hm, hl] at hchk; simp at hchk
          | some tl =>
            rw [hw, hm, hl] at hchk
            simp only [Bool.and_eq_true] at hchk
            obtain ⟨⟨h1, h2⟩, h3⟩ := hchk
            cases p with
            | windows =>
              obtain ⟨s, hs⟩ := Option.isSome_iff_exists.mp h1
              simp [get_script, hw, hs]
            | mac =>
              obtain ⟨s, hs⟩ := Option.isSome_iff_exists.mp h2
              simp [get_script, hm, hs]
            | linux =>
              obtain ⟨s, hs⟩ := Option.isSome_iff_exists.mp h3
              simp [get_script, hl, hs]
  · intro hall
    rw [check_for_key]
    by_cases ht : (top.lookup key).isSome
    · rw [if_pos ht]
    · rw [if_neg ht]
      have hbase : top.lookup key = none := Option.not_isSome_iff_eq_none.mp ht
      have hw' := hall Platform.windows
      have hm' := hall Platform.mac
      have hl' := hall Platform.linux
      cases hw : w with
      | none =>
        rw [show get_script key ⟨top, w, m, l⟩ Platform.windows = top.lookup key from by
          simp [get_script, hw]] at hw'
        rw [hbase] at hw'
        exact absurd hw' (by simp)
      | some tw =>
        cases hwl : tw.lookup key with
        | none =>
          rw [show get_script key ⟨top, w, m, l⟩ Platform.windows = top.lookup key from by
            simp [get_script, hw, hwl]] at hw'
          rw [hbase] at hw'
          exact absurd hw' (by simp)
        | some sw =>
          cases hm : m with
          | none =>
            rw [show get_script key ⟨top, w, m, l⟩ Platform.mac = top.lookup key from by
              simp [get_script, hm]] at hm'
            rw [hbase] at hm'
            exact absurd hm' (by simp)
          | some tm =>
            cases hml : tm.lookup key with
            | none =>
              rw [show get_script key ⟨top, w, m, l⟩ Platform.mac = top.lookup key from by
                simp [get_script, hm, hml]] at hm'
              rw [hbase] at hm'
              exact absurd hm' (by simp)
            | some sm =>
              cases hl : l with
              | none =>
                rw [show get_script key ⟨top, w, m, l⟩ Platform.linux = top.lookup key from by
                  simp [get_script, hl]] at hl'
                rw [hbase] at hl'
                exact absurd hl' (by simp)
              | some tl =>
                cases hll : tl.lookup key with
                | none =>
                  rw [show get_script key ⟨top, w, m, l⟩ Platform.linux
                      = top.lookup key from by
                    simp [get_script, hl, hll]] at hl'
                  rw [hbase] at hl'
                  exact absurd hl' (by simp)
                | some sl =>
                  simp [hwl, hml, hll]

/--
**C5, amended**  Constructing a Unit checks its roles only against the
platform the constructor runs on: `Module.__init__` succeeds on platform
`p` iff "init" and "destroy" resolve there, `Tool.__init__` succeeds on `p`
iff "install" and "uninstall" resolve there (its `Tool.get_script` agreeing
with `util.get_script` on the produced script).  The claim's every-platform
condition is exactly what `check_for_key` tests — a role resolves on all
platforms iff it is a top-level key or defined in all three platform
sub-tables — but the constructors never call `check_for_key`, so a
platform-partial table constructs successfully on the matching host (see
the counterexample).
-/
theorem claim_C5 (key : String) (sd : ScriptsDict) (plat : Platform) :
    (check_for_key key sd = true ↔ ∀ p, (get_script key sd p).isSome) ∧
    (∀ s, tool_get_script key sd plat = some (some s) ↔ get_script key sd plat = some s) ∧
    (module_construction_ok sd plat = true ↔
      (get_script "init" sd plat).isSome ∧ (get_script "destroy" sd plat).isSome) ∧
    (tool_construction_ok sd plat = true ↔
      (get_script "install" sd plat).isSome ∧ (get_script "uninstall" sd plat).isSome) := by
  refine ⟨check_for_key_iff key sd, fun s => tool_get_script_agrees key sd plat s, ?_, ?_⟩
  · simp [module_construction_ok]
  · constructor
    · intro h
      rw [tool_construction_ok] at h
      cases h1 : tool_get_script "install" sd plat with
      | none => rw [h1] at h; exact Bool.noConfusion h
      | some o1 =>
        cases o1 with
        | none => rw [h1] at h; exact Bool.noConfusion h
        | some s1 =>
          cases h2 : tool_get_script "uninstall" sd plat with
          | none => rw [h1, h2] at h; exact Bool.noConfusion h
          | some o2 =>
            cases o2 with
            | none => rw [h1, h2] at h; exact Bool.noConfusion h
            | some s2 =>
              have g1 := (tool_get_script_agrees "install" sd plat s1).mp h1
              have g2 := (tool_get_script_agrees "uninstall" sd plat s2).mp h2
              exact ⟨by simp [g1], by simp [g2]⟩
    · rintro ⟨h1, h2⟩
      obtain ⟨s1, hs1⟩ := Option.isSome_iff_exists.mp h1
      obtain ⟨s2, hs2⟩ := Option.isSome_iff_exists.mp h2
      rw [tool_construction_ok,
        (tool_get_script_agrees "install" sd plat s1).mpr hs1,
        (tool_get_script_agrees "uninstall" sd plat s2).mpr hs2]

/--
**C5, counterexample**  A module scripts table defining "init" and
"destroy" only inside the `linux` sub-table violates the claim's
all-platform condition (it does not resolve on windows, and `check_for_key`
rejects it), yet `Module.__init__` run on a Linux host succeeds — the claim
says construction raises regardless of the platform the constructor runs
on.
-/
theorem claim_C5_counterexample :
    module_construction_ok
      ⟨[], none, none, some [("init", "i"), ("destroy", "d")]⟩ Platform.linux = true ∧
    get_script "init"
      ⟨[], none, none, some [("init", "i"), ("destroy", "d")]⟩ Platform.windows = none ∧
    module_construction_ok
      ⟨[], none, none, some [("init", "i"), ("destroy", "d")]⟩ Platform.windows = false ∧
    check_for_key "init"
      ⟨[], none, none, some [("init", "i"), ("destroy", "d")]⟩ = false := by
  refine ⟨by decide, by decide, by decide, by decide⟩

/--
**C6**  For a script table defining role "install" both at top level and in
the `linux` sub-table, resolution on a Linux host returns the `linux`
entry; resolution of the same table on a Windows host with no `windows`
sub-table returns the top-level entry — both for `util.get_script` and for
`Tool.get_script`.
-/
theorem claim_C6 (sd : ScriptsDict) (top lin : String) (lt : List (String × String))
    (htop : sd.top.lookup "install" = some top)
    (hlin : sd.linux = some lt)
    (hlt : lt.lookup "install" = some lin)
    (hwin : sd.windows = none) :
    get_script "install" sd Platform.linux = some lin ∧
    get_script "install" sd Platform.windows = some top ∧
    tool_get_script "install" sd Platform.linux = some (some lin) ∧
    tool_get_script "install" sd Platform.windows = some (some top) := by
  refine ⟨?_, ?_, ?_, ?_⟩ <;>
    simp [get_script, tool_get_script, htop, hlin, hlt, hwin]

/-- Closed instance of `claim_C6` at a concrete table. -/
theorem claim_C6_witness :
    (⟨[("install", "apt install x"), ("uninstall", "apt remove x")], none, none,
        some [("install", "snap install x")]⟩ : ScriptsDict).top.lookup "install"
      = some "apt install x" ∧
    (⟨[("install", "apt install x"), ("uninstall", "apt remove x")], none, none,
        some [("install", "snap install x")]⟩ : ScriptsDict).linux
      = some [("install", "snap install x")] ∧
    ([("install", "snap install x")].lookup "install") = some "snap install x" ∧
    (⟨[("install", "apt install x"), ("uninstall", "apt remove x")], none, none,
        some [("install", "snap install x")]⟩ : ScriptsDict).windows = none ∧
    (get_script "install"
        ⟨[("install", "apt install x"), ("uninstall", "apt remove x")], none, none,
          some [("install", "snap install x")]⟩ Platform.linux
      = some "snap install x" ∧
    get_script "install"
        ⟨[("install", "apt install x"), ("uninstall", "apt remove x")], none, none,
          some [("install", "snap install x")]⟩ Platform.windows
      = some "apt install x" ∧
    tool_get_script "install"
        ⟨[("install", "apt install x"), ("uninstall", "apt remove x")], none, none,
          some [("install", "snap install x")]⟩ Platform.linux
      = some (some "snap install x") ∧
    tool_get_script "install"
        ⟨[("install", "apt install x"), ("uninstall", "apt remove x")], none, none,
          some [("install", "snap install x")]⟩ Platform.windows
      = some (some "apt install x")) :=
  ⟨by decide, by decide, by decide, by decide,
    claim_C6 ⟨[("install", "apt install x"), ("uninstall", "apt remove x")], none, none,
        some [("install", "snap install x")]⟩
      "apt install x" "snap install x" [("install", "snap install x")]
      (by decide) (by decide) (by decide) (by decide)⟩

/-- The sensitive-name patterns of `startout/util.py` (`SENSITIVE_PATTERNS`,
each compiled with `re.IGNORECASE`). -/
def SENSITIVE_PATTERNS : List String :=
  ["API_KEY", "TOKEN", "PASSWORD", "SECRET", "PRIVATE_KEY", "ACCESS_KEY"]

/-- `HIGH_ENTROPY_THRESHOLD = 3.5` (bits per character); the Python float is
modelled as the exact real. -/
noncomputable def HIGH_ENTROPY_THRESHOLD : ℝ := 3.5

/--
`calculate_entropy` from `startout/util.py`: the character-level Shannon
entropy of the string — the sum over the distinct characters of
`-p * log2 p`, with `p` the character's relative frequency.  (The Python
float arithmetic is modelled exactly over `ℝ`; the empty string gives `0`
as in the source's early return.)
-/
noncomputable def calculate_entropy (data : String) : ℝ :=
  ((data.toList.dedup).map fun x =>
    -(((data.toList.count x : ℝ) / (data.toList.length : ℝ)) *
      Real.logb 2 ((data.toList.count x : ℝ) / (data.toList.length : ℝ)))).sum

/-- The uppercased character list of a string (ASCII case-folding is enough
for the all-ASCII patterns above, matching `re.IGNORECASE`). -/
def toUpperChars (s : String) : List Char :=
  s.toList.map Char.toUpper

/-- Contiguous-substring search on character lists. -/
def charSearch (p s : List Char) : Bool :=
  (List.range (s.length + 1)).any fun i => decide ((s.drop i).take p.length = p)

/-- `pattern.search(key)` for one of the literal case-insensitive patterns:
the uppercased pattern occurs as a contiguous substring of the uppercased
key. -/
def patternSearch (p key : String) : Bool :=
  charSearch (toUpperChars p) (toUpperChars key)

/--
`is_potentially_sensitive_key_value` from `startout/util.py`: the key
matches one of the sensitive patterns, or the value's entropy exceeds the
threshold.
-/
def is_potentially_sensitive_key_value (key value : String) : Prop :=
  (∃ p ∈ SENSITIVE_PATTERNS, patternSearch p key = true) ∨
    calculate_entropy value > HIGH_ENTROPY_THRESHOLD

/-- The claim's reading of the name test, stated independently of the
search loop: the uppercased name splits around one of the uppercased
keywords. -/
def nameContainsSensitiveKeyword (key : String) : Prop :=
  ∃ kw ∈ SENSITIVE_PATTERNS, ∃ l r : List Char,
    toUpperChars key = l ++ toUpperChars kw ++ r

/-- `charSearch` finds exactly the contiguous-substring decompositions. -/
theorem charSearch_iff (p s : List Char) :
    charSearch p s = true ↔ ∃ l r, s = l ++ p ++ r := by
  rw [charSearch, List.any_eq_true]
  constructor
  · rintro ⟨i, -, hp⟩
    rw [decide_eq_true_eq] at hp
    refine ⟨s.take i, (s.drop i).drop p.length, ?_⟩
    have h2 : List.take p.length (s.drop i) ++ List.drop p.length (s.drop i) = s.drop i :=
      List.take_append_drop _ _
    rw [hp] at h2
    conv_lhs => rw [← List.take_append_drop i s, ← h2]
    rw [List.append_assoc]
  · rintro ⟨l, r, rfl⟩
    refine ⟨l.length, ?_, ?_⟩
    · rw [List.mem_range]
      simp only [List.length_append]
      omega
    · rw [decide_eq_true_eq, List.append_assoc, List.drop_left, List.take_left]

/--
**C8**  A captured environment variable is classified potentially sensitive
iff its name contains one of API_KEY / TOKEN / PASSWORD / SECRET /
PRIVATE_KEY / ACCESS_KEY case-insensitively, or its value's character-level
Shannon entropy exceeds 3.5 bits per character; in particular `API_KEY`
with value `"s3cr3t"` is sensitive and `COUNT` with value `"1"` is not.
-/
theorem claim_C8 :
    (∀ key value, is_potentially_sensitive_key_value key value ↔
      (nameContainsSensitiveKeyword key ∨
        calculate_entropy value > HIGH_ENTROPY_THRESHOLD)) ∧
    is_potentially_sensitive_key_value "API_KEY" "s3cr3t" ∧
    ¬ is_potentially_sensitive_key_value "COUNT" "1" := by
  have hname : ∀ key, (∃ p ∈ SENSITIVE_PATTERNS, patternSearch p key = true) ↔
      nameContainsSensitiveKeyword key := by
    intro key
    constructor
    · rintro ⟨p, hp, hsearch⟩
      obtain ⟨l, r, hlr⟩ := (charSearch_iff _ _).mp hsearch
      exact ⟨p, hp, l, r, hlr⟩
    · rintro ⟨kw, hkw, l, r, hlr⟩
      exact ⟨kw, hkw, (charSearch_iff _ _).mpr ⟨l, r, hlr⟩⟩
  refine ⟨?_, ?_, ?_⟩
  · intro key value
    exact or_congr (hname key) Iff.rfl
  · exact Or.inl ⟨"API_KEY", by decide, by decide⟩
  · rintro (⟨p, hp, hsearch⟩ | hent)
    · revert hsearch
      fin_cases hp <;> decide
    · have h0 : calculate_entropy "1" = 0 := by
        have h1 : ("1" : String).toList = ['1'] := rfl
        simp only [calculate_entropy, h1]
        norm_num [List.dedup, Real.logb_one]
      rw [h0, HIGH_ENTROPY_THRESHOLD] at hent
      norm_num at hent

/-- A process environment or dictionary, modelled as an association list;
`os.environ` has unique keys. -/
abbrev EnvDict := List (String × String)

/-- Python `dict.update`: keys already present have their value replaced in
place, new keys are appended in iteration order. -/
def dictUpdate (d : EnvDict) (new : EnvDict) : EnvDict :=
  new.foldl
    (fun acc kv =>
      if (acc.lookup kv.1).isSome then
        acc.map fun kv0 => if kv0.1 = kv.1 then (kv0.1, kv.2) else kv0
      else acc ++ [kv])
    d

/-- `EnvironmentVariableManager` from `startout/env_manager.py`: the
snapshot taken at construction and the accumulated captured variables. -/
structure EnvironmentVariableManager where
  initial_vars : EnvDict
  final_vars : EnvDict
deriving DecidableEq, Repr

/-- `EnvironmentVariableManager.__init__`: copy the current environment
into `initial_vars`; `final_vars` starts empty. -/
def EnvironmentVariableManager.init (environ : EnvDict) : EnvironmentVariableManager :=
  ⟨environ, []⟩

/--
`capture_final_env`, with the current environment passed explicitly: the
entries whose key is absent from the snapshot are merged into `final_vars`
(by `dict.update`), which is also returned.
-/
def capture_final_env (environ : EnvDict) (m : EnvironmentVariableManager) :
    EnvDict × EnvironmentVariableManager :=
  let new_vars := environ.filter fun kv => !(m.initial_vars.lookup kv.1).isSome
  let final := dictUpdate m.final_vars new_vars
  (final, { m with final_vars := final })

/-- Updating a dictionary with fresh, duplicate-free keys appends them. -/
theorem dictUpdate_append :
    ∀ (new acc : EnvDict), (new.map Prod.fst).Nodup →
      (∀ kv ∈ new, acc.lookup kv.1 = none) →
      dictUpdate acc new = acc ++ new := by
  intro new
  induction new with
  | nil =>
    intro acc _ _
    simp [dictUpdate]
  | cons kv rest ih =>
    intro acc hnodup hnone
    have hkv : acc.lookup kv.1 = none := hnone kv (List.mem_cons_self _ _)
    have hstep : dictUpdate acc (kv :: rest) = dictUpdate (acc ++ [kv]) rest := by
      rw [dictUpdate, List.foldl_cons, hkv]
      rfl
    rw [hstep, ih (acc ++ [kv]) (List.Nodup.of_cons hnodup) ?_]
    · simp
    · intro kv' hkv'
      rw [List.lookup_append, hnone kv' (List.mem_cons_of_mem _ hkv'), Option.none_or]
      have hne : kv'.1 ≠ kv.1 := by
        intro he
        have : kv.1 ∈ rest.map Prod.fst := he ▸ List.mem_map_of_mem _ hkv'
        exact (List.nodup_cons.mp hnodup).1 this
      have hbeq : (kv'.1 == kv.1) = false := beq_eq_false_iff_ne.mpr hne
      simp [List.lookup, hbeq]

/--
**C10**  For a manager as constructed (snapshot `initial`, empty
`final_vars`), `capture_final_env` run when the environment is `environ`
(unique keys, as `os.environ` guarantees) returns exactly the entries of
`environ` whose name is absent from the snapshot; in particular a variable
present in the snapshot — even if its value has changed since — is never in
the captured set.
-/
theorem claim_C10 (initial environ : EnvDict)
    (hnodup : (environ.map Prod.fst).Nodup) :
    (capture_final_env environ (EnvironmentVariableManager.init initial)).1
      = environ.filter (fun kv => !(initial.lookup kv.1).isSome) ∧
    (∀ kv, kv ∈ (capture_final_env environ (EnvironmentVariableManager.init initial)).1 ↔
      kv ∈ environ ∧ initial.lookup kv.1 = none) ∧
    (∀ k v, (initial.lookup k).isSome →
      (k, v) ∉ (capture_final_env environ (EnvironmentVariableManager.init initial)).1) := by
  have hfilnodup : ((environ.filter fun kv => !(initial.lookup kv.1).isSome).map
      Prod.fst).Nodup :=
    (((List.filter_sublist environ).map Prod.fst)).nodup hnodup
  have heq : (capture_final_env environ (EnvironmentVariableManager.init initial)).1
      = environ.filter fun kv => !(initial.lookup kv.1).isSome := by
    show dictUpdate [] (environ.filter fun kv => !(initial.lookup kv.1).isSome)
      = environ.filter fun kv => !(initial.lookup kv.1).isSome
    rw [dictUpdate_append _ [] hfilnodup (fun kv _ => rfl)]
    rfl
  have hmem : ∀ kv, kv ∈ (capture_final_env environ
      (EnvironmentVariableManager.init initial)).1 ↔
      kv ∈ environ ∧ initial.lookup kv.1 = none := by
    intro kv
    rw [heq, List.mem_filter]
    constructor
    · rintro ⟨h1, h2⟩
      refine ⟨h1, ?_⟩
      simp only [Bool.not_eq_true'] at h2
      exact Option.not_isSome_iff_eq_none.mp (by simp [h2])
    · rintro ⟨h1, h2⟩
      exact ⟨h1, by simp [h2]⟩
  refine ⟨heq, hmem, ?_⟩
  intro k v hsome hmem'
  have := (hmem (k, v)).mp hmem'
  rw [this.2] at hsome
  exact Bool.noConfusion hsome

/-- Closed instance of `claim_C10`: the snapshot holds `HOME` and `COUNT`;
at capture time `COUNT` has a changed value and `NEW_VAR` is new — only
`NEW_VAR` is captured. -/
theorem claim_C10_witness :
    (([("HOME", "/root"), ("COUNT", "2"), ("NEW_VAR", "x")] : EnvDict).map
      Prod.fst).Nodup ∧
    ((capture_final_env [("HOME", "/root"), ("COUNT", "2"), ("NEW_VAR", "x")]
        (EnvironmentVariableManager.init [("HOME", "/root"), ("COUNT", "1")])).1
      = [("HOME", "/root"), ("COUNT", "2"), ("NEW_VAR", "x")].filter
          (fun kv => !(([("HOME", "/root"), ("COUNT", "1")] : EnvDict).lookup
            kv.1).isSome) ∧
    (∀ kv, kv ∈ (capture_final_env [("HOME", "/root"), ("COUNT", "2"), ("NEW_VAR", "x")]
        (EnvironmentVariableManager.init [("HOME", "/root"), ("COUNT", "1")])).1 ↔
      kv ∈ ([("HOME", "/root"), ("COUNT", "2"), ("NEW_VAR", "x")] : EnvDict) ∧
        ([("HOME", "/root"), ("COUNT", "1")] : EnvDict).lookup kv.1 = none) ∧
    (∀ k v, (([("HOME", "/root"), ("COUNT", "1")] : EnvDict).lookup k).isSome →
      (k, v) ∉ (capture_final_env [("HOME", "/root"), ("COUNT", "2"), ("NEW_VAR", "x")]
        (EnvironmentVariableManager.init [("HOME", "/root"), ("COUNT", "1")])).1)) :=
  ⟨by decide,
    claim_C10 [("HOME", "/root"), ("COUNT", "1")]
      [("HOME", "/root"), ("COUNT", "2"), ("NEW_VAR", "x")] (by decide)⟩
